import Mathlib

/-
Verification of the lammps-logfile core (src/lammps_logfile/File.py) against its
natural-language specification.

The development shallowly embeds the segmentation state machine of
`read_file_to_dict`, the settings-extraction pass `parse_simulation_settings`,
and the accessors `get`, `get_keywords`, `get_num_partial_logs` and
`get_simulation_settings` of class `File`.

Modelling conventions:
- An input file is the list of lines produced by Python `readlines` (each line
  keeps its trailing newline character; the final line may lack one).
- Python dictionaries are insertion-ordered association lists with unique keys;
  assignment to an existing key updates it in place, assignment to a new key
  appends at the end, exactly as in CPython.
- Numeric table cells are kept as their raw source tokens (`Option String`,
  with `none` standing for a missing cell that pandas would fill with NaN):
  the claims under verification only compare lengths and propagated copies of
  cells, and the token-to-float conversion done by numpy and pandas is an
  injective pipeline on equal tokens, so raw tokens are a faithful currency.
- Methods that can raise a Python exception are embedded as `Except String`,
  with the `.error` payload naming the exception.
-/

set_option autoImplicit false

namespace LammpsLog

/-! ## Python string primitives, embedded structurally over `List Char` -/

/-- Membership test of Python `sub in s` on character lists. -/
def subOccurs (needle : List Char) : List Char → Bool
  | [] => needle.isEmpty
  | c :: t => needle.isPrefixOf (c :: t) || subOccurs needle t

/-- Python substring containment `sub in s`. -/
def pyIn (sub s : String) : Bool := subOccurs sub.toList s.toList

/-- Python `s.startswith(pre)`. -/
def pyStartsWith (s pre : String) : Bool := pre.toList.isPrefixOf s.toList

/-- Python `"\n" in line`. -/
def hasNL (s : String) : Bool := s.toList.contains '\n'

/-- Holds when the newline character occurs at most as the final character:
the shape of a single line coming out of Python `readlines`. -/
def noInnerNL (s : String) : Bool := !(s.toList.dropLast.contains '\n')

/-- Python `s.strip()`: drop leading and trailing whitespace. -/
def pyStrip (s : String) : String :=
  String.mk (((s.toList.dropWhile Char.isWhitespace).reverse.dropWhile
      Char.isWhitespace).reverse)

/-- Leading token of a character list up to the first whitespace, plus the rest. -/
def takeTok : List Char → List Char × List Char
  | [] => ([], [])
  | c :: t =>
      if c.isWhitespace then ([], c :: t)
      else
        let p := takeTok t
        (c :: p.1, c :: t)

/-- Suffix after the leading token. -/
def restTok : List Char → List Char
  | [] => []
  | c :: t => if c.isWhitespace then c :: t else restTok t

/-- Fuelled core of whitespace splitting (the fuel is an upper bound on the
number of characters and only serves structural termination). -/
def wsSplitGo : Nat → List Char → List (List Char)
  | _, [] => []
  | 0, _ => []
  | f + 1, c :: t =>
      if c.isWhitespace then wsSplitGo f t
      else (c :: (takeTok t).1) :: wsSplitGo f (restTok t)

/-- Python `s.split()`: split on runs of whitespace, dropping empty pieces. -/
def tokenize (s : String) : List String :=
  (wsSplitGo (s.toList.length + 1) s.toList).map String.mk

/-- Core of Python `str.splitlines` restricted to the newline character (the
only terminator occurring in this data): split at every newline, with no
trailing empty piece for a trailing newline. -/
def nlGo (cur : List Char) : List Char → List (List Char)
  | [] => [cur.reverse]
  | c :: t =>
      if c = '\n' then cur.reverse :: (if t.isEmpty then [] else nlGo [] t)
      else nlGo (c :: cur) t

/-- Python `s.splitlines()` for newline-separated text. -/
def pySplitlines (s : String) : List String :=
  if s.toList.isEmpty then [] else (nlGo [] s.toList).map String.mk

/-- Python `s.split('#')[0]`: the text before the first hash character. -/
def pyCutHash (s : String) : String := String.mk (s.toList.takeWhile (fun c => c ≠ '#'))

/-- Concatenation with single spaces, Python `' '.join(parts)`. -/
def joinSpace : List String → String
  | [] => ""
  | [s] => s
  | s :: r => s ++ " " ++ joinSpace r

/-- Lexicographic comparison of character lists by code point. -/
def listLe : List Char → List Char → Bool
  | [], _ => true
  | _ :: _, [] => false
  | c :: cs, d :: ds => if c = d then listLe cs ds else decide (c.val < d.val)

/-- Python string comparison by code points. -/
def strLe (a b : String) : Bool := listLe a.toList b.toList

/-- Insertion into a sorted list of strings. -/
def insSorted (s : String) : List String → List String
  | [] => [s]
  | t :: r => if strLe s t then s :: t :: r else t :: insSorted s r

/-- Python `sorted` on a list of strings (insertion sort; the order produced
agrees with sorting by code points). -/
def insSort (l : List String) : List String := l.foldr insSorted []

/-- Python indexing `l[i]` with an `int` index: negative indices count from the
end; `none` is the out-of-range case in which CPython raises IndexError. -/
def pyIndex {α : Type} (l : List α) (i : Int) : Option α :=
  if 0 ≤ i then l[i.toNat]?
  else if i.natAbs ≤ l.length then l[l.length - i.natAbs]? else none

/-- Concatenation of a list of strings in order (specification-side helper
used to describe accumulated narrative text). -/
def strConcat : List String → String
  | [] => ""
  | s :: r => s ++ strConcat r

/-! ## Lexical test for Python `float(s)`

Modelled from the spec: the SettingsOverlay stores a value "coerced to a
floating-point number when lexically valid" via the Python builtin `float`,
which is external to the repository.  The grammar below accepts an optional
sign followed by a decimal literal with optional fraction and exponent, or the
special words inf, infinity and nan case-insensitively (underscore digit
separators are omitted; no claim depends on that boundary). -/

def isPyFloatBody (cs : List Char) : Bool :=
  let lower := cs.map Char.toLower
  if lower = "inf".toList || lower = "infinity".toList || lower = "nan".toList then true
  else
    let intPart := cs.takeWhile Char.isDigit
    let rest := cs.dropWhile Char.isDigit
    let mant :=
      match rest with
      | '.' :: r => (decide (intPart ≠ []) || decide (r.takeWhile Char.isDigit ≠ []),
          r.dropWhile Char.isDigit)
      | _ => (decide (intPart ≠ []), rest)
    if !mant.1 then false
    else
      match mant.2 with
      | [] => true
      | 'e' :: r =>
          let r := match r with | '+' :: t => t | '-' :: t => t | t => t
          !r.isEmpty && r.all Char.isDigit
      | 'E' :: r =>
          let r := match r with | '+' :: t => t | '-' :: t => t | t => t
          !r.isEmpty && r.all Char.isDigit
      | _ => false

/-- Lexical validity of `float(s)` in Python. -/
def isPyFloat (s : String) : Bool :=
  match (pyStrip s).toList with
  | '+' :: t => isPyFloatBody t
  | '-' :: t => isPyFloatBody t
  | t => isPyFloatBody t

/-! ## Python dictionaries as insertion-ordered association lists -/

/-- Python dictionary lookup `d[k]` as an option. -/
def dlookup {α : Type} : List (String × α) → String → Option α
  | [], _ => none
  | (k, v) :: d, key => if k = key then some v else dlookup d key

/-- Python dictionary assignment `d[k] = v`: update in place when the key
exists, append at the end otherwise. -/
def dset {α : Type} : List (String × α) → String → α → List (String × α)
  | [], key, v => [(key, v)]
  | (k, w) :: d, key, v =>
      if k = key then (key, v) :: d else (k, w) :: dset d key v

/-- Python `d.update(e)`: fold the entries of `e` into `d`. -/
def dupdate {α : Type} (d e : List (String × α)) : List (String × α) :=
  e.foldl (fun acc p => dset acc p.1 p.2) d

/-- Keys of an association list. -/
def dkeys {α : Type} (d : List (String × α)) : List String := d.map Prod.fst

/-- Uniqueness of keys; every Python dictionary has it. -/
def NodupKeys {α : Type} (d : List (String × α)) : Prop := (dkeys d).Nodup

/-! ## Marker strings of class File -/

/-- Field start_thermo_strings of File.__init__. -/
def start_thermo_strings : List String :=
  ["Memory usage per processor", "Per MPI rank memory allocation"]

/-- Field stop_thermo_strings of File.__init__. -/
def stop_thermo_strings : List String := ["Loop time", "ERROR", "Fix halt condition"]

/-- Test of read_file_to_dict line 89: does the line start with any start marker. -/
def startsAnyB (line : String) : Bool :=
  start_thermo_strings.any (fun s => pyStartsWith line s)

/-- Test of read_file_to_dict line 56: does the line contain any stop marker. -/
def stopsAnyB (line : String) : Bool :=
  stop_thermo_strings.any (fun s => pyIn s line)

/-! ## The table-parsing collaborator

Modelled from the spec: pandas `read_table` with whitespace separator is the
out-of-scope "black-box table parser".  The accumulated buffer `tmpString` is a
concatenation of newline-terminated `readlines` lines, which pandas re-splits
at newlines; we therefore keep the buffer as the list of its lines.  Blank
lines are skipped (pandas `skip_blank_lines`), the first remaining line is the
header, and a column is read off at the position of its header token, one cell
per data line (`none` models the NaN fill of a short row). -/

/-- Token rows of the buffered table text, blank lines skipped. -/
def tableLines (buf : List String) : List (List String) :=
  (buf.map tokenize).filter (fun t => !t.isEmpty)

/-- Column of the parsed table under a header name, as raw cell tokens.  An
empty result also models the pandas failure cases (empty buffer, unknown
column) that no reachable call site of the segmenter produces. -/
def readTableCol (buf : List String) (name : String) : List (Option String) :=
  match tableLines buf with
  | [] => []
  | hdr :: rows =>
      match hdr.findIdx? (fun t => t == name) with
      | none => []
      | some idx => rows.map (fun r => r[idx]?)

/-! ## The segmentation state machine of read_file_to_dict -/

/-- Cell of a columnar dataset: the raw source token, `none` for a NaN fill. -/
abbrev Cell := Option String

/-- Mapping from column name to value sequence (`data_dict` and the per-run
`partial_dict` entries). -/
abbrev Dataset := List (String × List Cell)

/-- Control position of the line loop of read_file_to_dict: `scan` is the
ordinary state (`keyword_flag` false), `header` means the previous line
matched a start marker (`keyword_flag` true, so the current line carries the
column keywords), and `collect` is the inner while loop accumulating block
lines until a stop marker. -/
inductive SegMode where
  | scan
  | header
  | collect (kw : List String) (buf : List String)
deriving DecidableEq

/-- State of read_file_to_dict: the five File fields it populates plus the
loop-local flags and buffers. -/
structure SegAcc where
  output_before_first_run : String
  data_dict : Dataset
  keywords : List String
  partial_logs : List Dataset
  intermittent_output : List (List String)
  beforeFirst : Bool
  intermit : Bool
  tmp : List String
  mode : SegMode
deriving DecidableEq

/-- Initial state at the top of read_file_to_dict on a fresh File object. -/
def initSeg : SegAcc :=
  { output_before_first_run := ""
    data_dict := []
    keywords := []
    partial_logs := []
    intermittent_output := []
    beforeFirst := true
    intermit := false
    tmp := []
    mode := SegMode.scan }

/-- Method flush_dict_and_set_new_keyword, dictionary part: a fresh data_dict
holding an empty sequence for every new keyword. -/
def flushDict (kw : List String) : Dataset :=
  kw.foldl (fun d e => dset d e []) []

/-- Merge loop of read_file_to_dict lines 74 to 79: one pass over the keywords
appends the parsed column both to data_dict and to a fresh partial_dict. -/
def mergePair (dd : Dataset) (kw : List String) (buf : List String) : Dataset × Dataset :=
  kw.foldl
    (fun p name =>
      (dset p.1 name ((dlookup p.1 name).getD [] ++ readTableCol buf name),
       dset p.2 name (readTableCol buf name)))
    (dd, [])

/-- Block finalisation: the body of the `keyword_flag` branch after the inner
while loop has consumed the block (flush on keyword change, merge, append the
finished narrative chunk, re-enter narrative tracking). -/
def finalizeBlock (st : SegAcc) (kw : List String) (buf : List String) : SegAcc :=
  let dd0 := if st.keywords = kw then st.data_dict else flushDict kw
  let pr := mergePair dd0 kw buf
  { st with
    data_dict := pr.1
    keywords := kw
    partial_logs := st.partial_logs ++ [pr.2]
    intermittent_output := st.intermittent_output ++ [st.tmp]
    tmp := []
    intermit := true
    mode := SegMode.scan }

/-- Start-marker check of read_file_to_dict lines 89 to 93, applied to the
line currently held in the loop variable. -/
def startCheck (st : SegAcc) (line : String) : SegAcc :=
  if startsAnyB line then
    { st with mode := SegMode.header, beforeFirst := false, intermit := false }
  else st

/-- Top of the loop body, lines 46 to 49: append the line to
output_before_first_run and to the working narrative buffer per the flags. -/
def topAppends (st : SegAcc) (line : String) : SegAcc :=
  let st1 :=
    if st.beforeFirst then
      { st with output_before_first_run := st.output_before_first_run ++ line }
    else st
  if st1.intermit then { st1 with tmp := st1.tmp ++ [line] } else st1

/-- One iteration of the line loop of read_file_to_dict.  In `collect` mode the
iteration models one pass of the inner while loop (those lines never receive
the top-of-loop appends in the source either, and the flags governing them are
false throughout a block); a line containing a stop marker finalises the block
and then undergoes the start-marker check, exactly as the source applies that
check to the loop variable left behind by the inner loop. -/
def segStep (st : SegAcc) (line : String) : SegAcc :=
  match st.mode with
  | SegMode.scan => startCheck (topAppends st line) line
  | SegMode.header =>
      let st1 := topAppends st line
      let kw := tokenize line
      if stopsAnyB line then startCheck (finalizeBlock st1 kw []) line
      else { st1 with mode := SegMode.collect kw (if hasNL line then [line] else []) }
  | SegMode.collect kw buf =>
      if stopsAnyB line then startCheck (finalizeBlock st kw buf) line
      else { st with mode := SegMode.collect kw (buf ++ if hasNL line then [line] else []) }

/-- Input exhaustion: a block still being collected is finalised with whatever
lines were accumulated (read_file_to_dict inner loop break on `i == len`). -/
def segFinish (st : SegAcc) : SegAcc :=
  match st.mode with
  | SegMode.collect kw buf => finalizeBlock st kw buf
  | _ => st

/-- Line loop of read_file_to_dict over the whole input. -/
def segRunLines (st : SegAcc) (ls : List String) : SegAcc := ls.foldl segStep st

/-- Method read_file_to_dict on the list of input lines: run the loop, close a
dangling block, then drop the leading placeholder narrative chunk. -/
def read_file_to_dict (contents : List String) : SegAcc :=
  let st := segFinish (segRunLines initSeg contents)
  { st with intermittent_output := st.intermittent_output.drop 1 }

/-! ## The settings-extraction pass -/

/-- Value of a simulation setting: `num raw` stands for the Python float parsed
from the token `raw` (the claims only compare copies, and equal tokens parse to
equal floats), `str` is the string fallback or the space-joined multi-token
value. -/
inductive SettingValue where
  | num (raw : String)
  | str (s : String)
deriving DecidableEq

/-- Dictionary of simulation settings. -/
abbrev SettingsDict := List (String × SettingValue)

/-- List sim_settings_kws of parse_simulation_settings. -/
def sim_settings_kws : List String :=
  ["units", "timestep", "boundary", "atom_style", "pair_style", "bond_style",
   "angle_style", "dihedral_style", "improper_style"]

/-- Coercion of the value tokens of a recognised setting line: one token that
parses as a float is kept numerically, one other token stays a string, several
tokens are rejoined with single spaces. -/
def coerceValue (parts : List String) : SettingValue :=
  match parts with
  | [p] => if isPyFloat p then SettingValue.num p else SettingValue.str p
  | ps => SettingValue.str (joinSpace ps)

/-- Helper parse_line of parse_simulation_settings.  The loop threads the line
variable because a successful match truncates it at the comment character for
the remaining keyword iterations, exactly as in the source. -/
def parse_line (line : String) : SettingsDict :=
  (sim_settings_kws.foldl
    (fun (p : String × SettingsDict) kw =>
      if pyStartsWith (pyStrip p.1) kw then
        let cut := pyCutHash p.1
        (cut, dset p.2 kw (coerceValue ((tokenize cut).drop 1)))
      else p)
    (line, [])).2

/-- Application of one narrative chunk onto a settings dictionary (the inner
line loop building tmp_settings). -/
def applyChunk (sims : SettingsDict) (chunk : List String) : SettingsDict :=
  chunk.foldl (fun t l => dupdate t (parse_line l)) sims

/-- Snapshot sequence appended by the chunk loop of parse_simulation_settings:
each chunk yields one snapshot grown from the running accumulator, which is
then itself updated with the snapshot. -/
def settingsChain (sims : SettingsDict) : List (List String) → List SettingsDict
  | [] => []
  | chunk :: rest =>
      let tmp := applyChunk sims chunk
      tmp :: settingsChain (dupdate sims tmp) rest

/-- Final value of the running accumulator simulation_settings. -/
def chainFinal (sims : SettingsDict) : List (List String) → SettingsDict
  | [] => sims
  | chunk :: rest =>
      let tmp := applyChunk sims chunk
      chainFinal (dupdate sims tmp) rest

/-! ## Class File -/

/-- State of a File object after construction: the segmentation result plus the
two settings fields. -/
structure File where
  seg : SegAcc
  simulation_settings : SettingsDict
  partial_simulation_settings : List SettingsDict
deriving DecidableEq

/-- Method parse_simulation_settings.  When output_before_first_run is empty the
source re-invokes read_file_to_dict, but the underlying stream is already
exhausted so the retry reads no lines and the ValueError is raised
unconditionally; the object never escapes its constructor on that path. -/
def parse_simulation_settings (f : File) : Except String File :=
  if f.seg.output_before_first_run = "" then
    Except.error "No output before first run found in log file."
  else
    let s0 := (pySplitlines f.seg.output_before_first_run).foldl
        (fun s l => dupdate s (parse_line l)) f.simulation_settings
    Except.ok
      { f with
        partial_simulation_settings :=
          f.partial_simulation_settings ++
            s0 :: settingsChain s0 f.seg.intermittent_output
        simulation_settings := chainFinal s0 f.seg.intermittent_output }

/-- Constructor File.__init__ on the lines of the input: segment, then extract
settings; a ValueError from the settings pass aborts construction. -/
def File.build (contents : List String) : Except String File :=
  parse_simulation_settings
    { seg := read_file_to_dict contents
      simulation_settings := []
      partial_simulation_settings := [] }

/-- Method get.  `.ok none` is the not-found sentinel (Python None), `.error`
models the IndexError that negative indexing can raise. -/
def File.get (f : File) (entry_name : String) (run_num : Int) : Except String (Option (List Cell)) :=
  if run_num = -1 then Except.ok (dlookup f.seg.data_dict entry_name)
  else
    if (f.seg.partial_logs.length : Int) > run_num then
      match pyIndex f.seg.partial_logs run_num with
      | some partial_log => Except.ok (dlookup partial_log entry_name)
      | none => Except.error "IndexError"
    else Except.ok none

/-- Method get_keywords. -/
def File.get_keywords (f : File) (run_num : Int) : Except String (Option (List String)) :=
  if run_num = -1 then Except.ok (some (insSort f.seg.keywords))
  else
    if (f.seg.partial_logs.length : Int) > run_num then
      match pyIndex f.seg.partial_logs run_num with
      | some partial_log => Except.ok (some (insSort (dkeys partial_log)))
      | none => Except.error "IndexError"
    else Except.ok none

/-- Method get_num_partial_logs. -/
def File.get_num_partial_logs (f : File) : Nat := f.seg.partial_logs.length

/-- Method get_simulation_settings. -/
def File.get_simulation_settings (f : File) (run_num : Int) : Except String SettingsDict :=
  match pyIndex f.partial_simulation_settings run_num with
  | some d => Except.ok d
  | none => Except.error "IndexError"

/-! ## Decidable equality for Except results -/

/-- Injection of Except into Sum, used only to decide equality. -/
def exceptToSum {ε α : Type} : Except ε α → ε ⊕ α
  | Except.error e => Sum.inl e
  | Except.ok a => Sum.inr a

instance {ε α : Type} [DecidableEq ε] [DecidableEq α] : DecidableEq (Except ε α) :=
  fun a b =>
    decidable_of_iff (exceptToSum a = exceptToSum b)
      (by cases a <;> cases b <;> simp [exceptToSum])

/-! ## Well-formed log inputs

The universally quantified claims speak about "input logs containing tabular
blocks".  We realise that shape as a generator: a log is pre-run narrative
followed by blocks, where a block is its start-marker line, a header line, data
rows, a stop-marker line and trailing narrative, subject to the sanity
conditions below.  All lines are quantified; the conditions only pin down the
roles the claims assign to them. -/

/-- One tabular block of the input together with the narrative gap behind it. -/
structure Block where
  startLine : String
  headerLine : String
  rowLines : List String
  stopLine : String
  gap : List String
deriving DecidableEq

/-- ColumnSet of a block: the whitespace tokens of its header line. -/
def blockKw (b : Block) : List String := tokenize b.headerLine

/-- Buffer handed to the table parser for a block: header line then data rows. -/
def blockBuf (b : Block) : List String := b.headerLine :: b.rowLines

/-- Parsed column of one block under a header name. -/
def blockCol (b : Block) (name : String) : List Cell := readTableCol (blockBuf b) name

/-- Per-run dataset entry the merge loop builds for one block. -/
def pdictOf (b : Block) : Dataset :=
  (blockKw b).foldl (fun p name => dset p name (blockCol b name)) []

/-- Well-formedness of a block: the start line matches a start marker, header
and rows are newline-terminated single lines free of stop markers, the header
has distinct nonempty column tokens, every row has one token per column, the
stop line carries a stop marker but no start marker, and gap lines start no
block. -/
def WFBlock (b : Block) : Prop :=
  startsAnyB b.startLine = true ∧
  stopsAnyB b.headerLine = false ∧ hasNL b.headerLine = true ∧ noInnerNL b.headerLine = true ∧
  blockKw b ≠ [] ∧ (blockKw b).Nodup ∧
  (∀ l ∈ b.rowLines, stopsAnyB l = false ∧ hasNL l = true ∧ noInnerNL l = true ∧
      tokenize l ≠ [] ∧ (tokenize l).length = (blockKw b).length) ∧
  stopsAnyB b.stopLine = true ∧ startsAnyB b.stopLine = false ∧
  (∀ l ∈ b.gap, startsAnyB l = false)

instance (b : Block) : Decidable (WFBlock b) := by
  unfold WFBlock; infer_instance

/-- Lines of one block as they occur in the input file. -/
def fullLines (b : Block) : List String :=
  b.startLine :: b.headerLine :: (b.rowLines ++ b.stopLine :: b.gap)

/-- Input file consisting of pre-run narrative followed by tabular blocks. -/
def mkLog (pre : List String) (bs : List Block) : List String :=
  pre ++ (bs.map fullLines).flatten

/-! ## Summary of the segmenter on block-structured input -/

/-- Net effect of consuming all lines of one block from scan mode: the before
and intermittent flags route the start-marker line into the pre-run narrative
or the pending chunk, the block is finalised, and its gap becomes the new
pending chunk. -/
def afterBlock (st : SegAcc) (bk : Block) : SegAcc :=
  let st1 :=
    { st with
      output_before_first_run :=
        if st.beforeFirst then st.output_before_first_run ++ bk.startLine
        else st.output_before_first_run
      tmp := if st.intermit then st.tmp ++ [bk.startLine] else st.tmp
      beforeFirst := false
      intermit := false }
  let st2 := finalizeBlock st1 (blockKw bk) (blockBuf bk)
  { st2 with tmp := bk.gap }

/-- Iterated block consumption. -/
def afterBlocks (st : SegAcc) (bs : List Block) : SegAcc := bs.foldl afterBlock st

/-- Narrative chunks recorded while consuming a block sequence, given the
pending chunk and narrative flag at entry: each block closes the pending chunk
after the chunk has absorbed the start-marker line of that block. -/
def chunksFrom (t : List String) (m : Bool) : List Block → List (List String)
  | [] => []
  | b :: bs => (if m then t ++ [b.startLine] else t) :: chunksFrom b.gap true bs

/-- Tracked ColumnSet and aggregate columns, folded over blocks: a block whose
ColumnSet matches the tracked one appends to the aggregate, any other block
flushes it. -/
def aggStep (s : List String × (String → List Cell)) (bk : Block) :
    List String × (String → List Cell) :=
  if blockKw bk = s.1 then (s.1, fun c => s.2 c ++ blockCol bk c)
  else (blockKw bk, fun c => blockCol bk c)

/-- Fold of aggStep over a block sequence. -/
def aggFold (s : List String × (String → List Cell)) (bs : List Block) :
    List String × (String → List Cell) :=
  bs.foldl aggStep s

/-- Final contiguous subsequence of blocks sharing the ColumnSet of the last
block, as worded in the specification. -/
def finalEpoch (bs : List Block) : List Block :=
  match bs.getLast? with
  | none => []
  | some lb => (bs.reverse.takeWhile (fun b => decide (blockKw b = blockKw lb))).reverse

/-- Aggregate column over the final schema epoch. -/
def epochAgg (bs : List Block) (c : String) : List Cell :=
  ((finalEpoch bs).map (fun b => blockCol b c)).flatten

/-! ## Concrete inputs used by witnesses and counterexamples -/

/-- One line of narrative and nothing else: no start marker anywhere. -/
def demoNoRun : List String := ["hello\n"]

/-- A one-run log matching the scenario of the specification. -/
def demoOne : List String :=
  ["units lj\n", "timestep 0.005\n",
   "Per MPI rank memory allocation\n",
   "Step Temp\n", "0 1.0\n", "1 1.1\n", "Loop time\n"]

/-- A two-run log whose second block changes the ColumnSet. -/
def demoTwo : List String :=
  ["units lj\n",
   "Per MPI rank memory allocation\n",
   "Step Temp\n", "0 1.0\n", "1 1.1\n", "Loop time\n",
   "timestep 0.01\n",
   "Per MPI rank memory allocation\n",
   "Step Press\n", "2 5.0\n", "Loop time\n"]

/-- First demo block: columns Step and Temp, two rows, one gap line. -/
def demoBlockA : Block :=
  { startLine := "Per MPI rank memory allocation\n"
    headerLine := "Step Temp\n"
    rowLines := ["0 1.0\n", "1 1.1\n"]
    stopLine := "Loop time\n"
    gap := ["timestep 0.01\n"] }

/-- Second demo block: same columns as demoBlockA, one row, no gap. -/
def demoBlockB : Block :=
  { startLine := "Per MPI rank memory allocation\n"
    headerLine := "Step Temp\n"
    rowLines := ["4 2.0\n"]
    stopLine := "Loop time\n"
    gap := [] }

/-- Third demo block: different ColumnSet (Step and Press). -/
def demoBlockC : Block :=
  { startLine := "Per MPI rank memory allocation\n"
    headerLine := "Step Press\n"
    rowLines := ["2 5.0\n"]
    stopLine := "Loop time\n"
    gap := [] }

/-! # Lemmas

From here on the file contains only theorems about the definitions above. -/

/-! ## Association-list dictionary lemmas -/

theorem dlookup_dset {α : Type} (d : List (String × α)) (k : String) (v : α) (key : String) :
    dlookup (dset d k v) key = if k = key then some v else dlookup d key := by
  induction d with
  | nil => simp [dset, dlookup]
  | cons p d ih =>
      obtain ⟨k1, v1⟩ := p
      by_cases h1 : k1 = k
      · subst h1
        by_cases h2 : k1 = key <;> simp [dset, dlookup, h2]
      · by_cases h2 : k1 = key
        · subst h2
          simp [dset, dlookup, h1, Ne.symm h1, ih]
        · simp [dset, dlookup, h1, h2, ih]

theorem dset_ne_nil {α : Type} (d : List (String × α)) (k : String) (v : α) :
    dset d k v ≠ [] := by
  cases d with
  | nil => simp [dset]
  | cons p d =>
      obtain ⟨k1, v1⟩ := p
      simp only [dset]
      by_cases h : k1 = k <;> simp [h]

theorem dkeys_nil {α : Type} : dkeys ([] : List (String × α)) = [] := rfl

theorem dkeys_cons {α : Type} (k : String) (v : α) (d : List (String × α)) :
    dkeys ((k, v) :: d) = k :: dkeys d := rfl

theorem dkeys_dset {α : Type} (d : List (String × α)) (k : String) (v : α) :
    dkeys (dset d k v) = if k ∈ dkeys d then dkeys d else dkeys d ++ [k] := by
  induction d with
  | nil => simp [dset, dkeys]
  | cons p d ih =>
      obtain ⟨k1, v1⟩ := p
      by_cases h1 : k1 = k
      · subst h1
        simp [dset, dkeys_cons]
      · have hd : dset ((k1, v1) :: d) k v = (k1, v1) :: dset d k v := by simp [dset, h1]
        rw [hd, dkeys_cons, ih, dkeys_cons]
        by_cases h2 : k ∈ dkeys d
        · rw [if_pos h2, if_pos (List.mem_cons.mpr (Or.inr h2))]
        · rw [if_neg h2, if_neg ?hc, List.cons_append]
          intro hh
          rcases List.mem_cons.mp hh with he | hm
          · exact h1 he.symm
          · exact h2 hm

theorem nodupKeys_dset {α : Type} (d : List (String × α)) (k : String) (v : α)
    (h : NodupKeys d) : NodupKeys (dset d k v) := by
  unfold NodupKeys at *
  rw [dkeys_dset]
  by_cases hm : k ∈ dkeys d
  · rw [if_pos hm]; exact h
  · rw [if_neg hm]
    refine List.Nodup.append h (List.nodup_singleton k) ?_
    intro a ha hb
    simp at hb
    subst hb
    exact hm ha

theorem nodupKeys_dupdate {α : Type} (d e : List (String × α)) (h : NodupKeys d) :
    NodupKeys (dupdate d e) := by
  induction e generalizing d with
  | nil => exact h
  | cons p e ih => exact ih (dset d p.1 p.2) (nodupKeys_dset d p.1 p.2 h)

theorem dlookup_eq_none_of_not_mem {α : Type} (d : List (String × α)) (key : String)
    (h : key ∉ dkeys d) : dlookup d key = none := by
  induction d with
  | nil => rfl
  | cons p d ih =>
      obtain ⟨k1, v1⟩ := p
      have h1 : ¬ k1 = key := fun hh =>
        h (by rw [dkeys_cons, hh]; exact List.mem_cons_self _ _)
      have h2 : key ∉ dkeys d := fun hh =>
        h (by rw [dkeys_cons]; exact List.mem_cons.mpr (Or.inr hh))
      simp [dlookup, h1, ih h2]

theorem mem_dkeys_of_dlookup {α : Type} (d : List (String × α)) (key : String) (v : α)
    (h : dlookup d key = some v) : key ∈ dkeys d := by
  by_contra hm
  rw [dlookup_eq_none_of_not_mem d key hm] at h
  cases h

theorem dlookup_dupdate_none {α : Type} (d e : List (String × α)) (key : String)
    (h : dlookup e key = none) : dlookup (dupdate d e) key = dlookup d key := by
  induction e generalizing d with
  | nil => rfl
  | cons p e ih =>
      obtain ⟨k1, v1⟩ := p
      simp only [dlookup] at h
      by_cases h1 : k1 = key
      · simp [h1] at h
      · simp [h1] at h
        show dlookup (dupdate (dset d k1 v1) e) key = dlookup d key
        rw [ih (dset d k1 v1) h, dlookup_dset]
        simp [h1]

theorem nodupKeys_cons {α : Type} (k1 : String) (v1 : α) (e : List (String × α))
    (he : NodupKeys ((k1, v1) :: e)) : k1 ∉ dkeys e ∧ NodupKeys e := by
  unfold NodupKeys dkeys at he
  simp only [List.map_cons, List.nodup_cons] at he
  exact he

theorem dlookup_dupdate_some {α : Type} (e : List (String × α)) :
    ∀ (d : List (String × α)) (key : String) (v : α),
    NodupKeys e → dlookup e key = some v → dlookup (dupdate d e) key = some v := by
  induction e with
  | nil => intro d key v _ h; cases h
  | cons p e ih =>
      intro d key v he h
      obtain ⟨k1, v1⟩ := p
      obtain ⟨hk1, he2⟩ := nodupKeys_cons k1 v1 e he
      by_cases h1 : k1 = key
      · subst h1
        have hv : v1 = v := by simpa [dlookup] using h
        subst hv
        show dlookup (dupdate (dset d k1 v1) e) k1 = some v1
        rw [dlookup_dupdate_none _ _ _ (dlookup_eq_none_of_not_mem e k1 hk1), dlookup_dset]
        simp
      · have h2 : dlookup e key = some v := by simpa [dlookup, h1] using h
        exact ih (dset d k1 v1) key v he2 h2

theorem dlookup_isSome_dset {α : Type} (d : List (String × α)) (k : String) (v : α)
    (key : String) (h : (dlookup d key).isSome) : (dlookup (dset d k v) key).isSome := by
  rw [dlookup_dset]
  by_cases h1 : k = key <;> simp [h1, h]

theorem dlookup_isSome_dupdate {α : Type} (d e : List (String × α)) (key : String)
    (h : (dlookup d key).isSome) : (dlookup (dupdate d e) key).isSome := by
  induction e generalizing d with
  | nil => exact h
  | cons p e ih => exact ih (dset d p.1 p.2) (dlookup_isSome_dset d p.1 p.2 key h)

/-! ## Elementary string facts -/

theorem str_data_append (a b : String) : (a ++ b).data = a.data ++ b.data := by
  cases a; cases b; rfl

theorem str_append_empty (s : String) : s ++ "" = s := by
  cases s with
  | mk d => apply congrArg String.mk; exact List.append_nil d

theorem str_append_assoc (a b c : String) : a ++ b ++ c = a ++ (b ++ c) := by
  cases a; cases b; cases c
  apply congrArg String.mk
  exact List.append_assoc _ _ _

theorem append_ne_empty_right (a b : String) (h : b ≠ "") : a ++ b ≠ "" := by
  intro hh
  have h2 : (a ++ b).data = [] := by rw [hh]
  rw [str_data_append] at h2
  have h3 := (List.append_eq_nil.mp h2).2
  apply h
  cases b with
  | mk d => cases h3; rfl

theorem startsAny_ne_empty (l : String) (h : startsAnyB l = true) : l ≠ "" := by
  intro hl
  subst hl
  have h0 : startsAnyB "" = false := by decide
  rw [h0] at h
  cases h

/-! ## Generic fold lemmas -/

theorem foldl_pair_split {β γ δ : Type} (l : List β) (f : γ → β → γ) (g : δ → β → δ)
    (c : γ) (d : δ) :
    l.foldl (fun p x => (f p.1 x, g p.2 x)) (c, d) = (l.foldl f c, l.foldl g d) := by
  induction l generalizing c d with
  | nil => rfl
  | cons x l ih => simp [List.foldl_cons, ih]

theorem mergeFold_lookup (cells : String → List Cell) (names : List String)
    (hnd : names.Nodup) :
    ∀ (dd : Dataset) (key : String),
    dlookup (names.foldl (fun d n => dset d n ((dlookup d n).getD [] ++ cells n)) dd) key =
      if key ∈ names then some ((dlookup dd key).getD [] ++ cells key) else dlookup dd key := by
  induction names with
  | nil => intro dd key; simp
  | cons n names ih =>
      intro dd key
      have hn : n ∉ names := (List.nodup_cons.mp hnd).1
      have hnd2 : names.Nodup := (List.nodup_cons.mp hnd).2
      rw [List.foldl_cons, ih hnd2]
      by_cases hk : key ∈ names
      · have hne : ¬ n = key := fun hh => hn (hh ▸ hk)
        rw [if_pos hk, if_pos (List.mem_cons.mpr (Or.inr hk)), dlookup_dset, if_neg hne]
      · rw [if_neg hk, dlookup_dset]
        by_cases he : n = key
        · subst he
          rw [if_pos rfl, if_pos (List.mem_cons_self _ _)]
        · rw [if_neg he, if_neg ?hc]
          intro hh
          rcases List.mem_cons.mp hh with h1 | h2
          · exact he h1.symm
          · exact hk h2

theorem constFold_lookup {α : Type} (cells : String → α) (names : List String) :
    ∀ (d0 : List (String × α)) (key : String),
    dlookup (names.foldl (fun d n => dset d n (cells n)) d0) key =
      if key ∈ names then some (cells key) else dlookup d0 key := by
  induction names with
  | nil => intro d0 key; simp
  | cons n names ih =>
      intro d0 key
      rw [List.foldl_cons, ih]
      by_cases hk : key ∈ names
      · rw [if_pos hk, if_pos (List.mem_cons.mpr (Or.inr hk))]
      · rw [if_neg hk, dlookup_dset]
        by_cases he : n = key
        · subst he
          rw [if_pos rfl, if_pos (List.mem_cons_self _ _)]
        · rw [if_neg he, if_neg ?hc]
          intro hh
          rcases List.mem_cons.mp hh with h1 | h2
          · exact he h1.symm
          · exact hk h2

theorem fold_ne_nil {α : Type} (cells : String → α) (names : List String)
    (d0 : List (String × α)) (h : d0 ≠ []) :
    names.foldl (fun d n => dset d n (cells n)) d0 ≠ [] := by
  induction names generalizing d0 with
  | nil => exact h
  | cons n names ih => exact ih (dset d0 n (cells n)) (dset_ne_nil d0 n (cells n))

/-! ## Step equations of the segmenter -/

theorem topAppends_eq (st : SegAcc) (l : String) :
    topAppends st l =
      { st with
        output_before_first_run :=
          if st.beforeFirst then st.output_before_first_run ++ l
          else st.output_before_first_run
        tmp := if st.intermit then st.tmp ++ [l] else st.tmp } := by
  obtain ⟨o, dd, kw, pl, io, bf, im, tp, md⟩ := st
  unfold topAppends
  by_cases h1 : bf <;> by_cases h2 : im <;> simp [h1, h2]

theorem startCheck_pos (st : SegAcc) (l : String) (h : startsAnyB l = true) :
    startCheck st l =
      { st with mode := SegMode.header, beforeFirst := false, intermit := false } := by
  unfold startCheck
  rw [h]
  simp

theorem startCheck_neg (st : SegAcc) (l : String) (h : startsAnyB l = false) :
    startCheck st l = st := by
  unfold startCheck
  rw [h]
  simp

theorem segStep_scan (st : SegAcc) (l : String) (h : st.mode = SegMode.scan) :
    segStep st l = startCheck (topAppends st l) l := by
  unfold segStep
  rw [h]

theorem segStep_header_stop (st : SegAcc) (l : String) (h : st.mode = SegMode.header)
    (hs : stopsAnyB l = true) :
    segStep st l = startCheck (finalizeBlock (topAppends st l) (tokenize l) []) l := by
  unfold segStep
  rw [h]
  simp [hs]

theorem segStep_header_go (st : SegAcc) (l : String) (h : st.mode = SegMode.header)
    (hs : stopsAnyB l = false) :
    segStep st l =
      { topAppends st l with
        mode := SegMode.collect (tokenize l) (if hasNL l then [l] else []) } := by
  unfold segStep
  rw [h]
  simp [hs]

theorem segStep_collect_stop (st : SegAcc) (l : String) (kw buf : List String)
    (h : st.mode = SegMode.collect kw buf) (hs : stopsAnyB l = true) :
    segStep st l = startCheck (finalizeBlock st kw buf) l := by
  unfold segStep
  rw [h]
  simp [hs]

theorem segStep_collect_go (st : SegAcc) (l : String) (kw buf : List String)
    (h : st.mode = SegMode.collect kw buf) (hs : stopsAnyB l = false) :
    segStep st l =
      { st with mode := SegMode.collect kw (buf ++ if hasNL l then [l] else []) } := by
  unfold segStep
  rw [h]
  simp [hs]

theorem segRunLines_nil (st : SegAcc) : segRunLines st [] = st := rfl

theorem segRunLines_cons (st : SegAcc) (l : String) (ls : List String) :
    segRunLines st (l :: ls) = segRunLines (segStep st l) ls := rfl

theorem segRunLines_append (st : SegAcc) (a b : List String) :
    segRunLines st (a ++ b) = segRunLines (segRunLines st a) b := by
  unfold segRunLines
  exact List.foldl_append _ _ _ _

/-! ## Runs of the segmenter over marker-free and in-block line stretches -/

theorem segRun_scan (ls : List String) :
    ∀ (st : SegAcc) (rest : List String), st.mode = SegMode.scan →
    (∀ l ∈ ls, startsAnyB l = false) →
    segRunLines st (ls ++ rest) =
      segRunLines
        { st with
          output_before_first_run :=
            if st.beforeFirst then st.output_before_first_run ++ strConcat ls
            else st.output_before_first_run
          tmp := if st.intermit then st.tmp ++ ls else st.tmp } rest := by
  induction ls with
  | nil =>
      intro st rest hm hns
      have he :
          { st with
            output_before_first_run :=
              if st.beforeFirst then st.output_before_first_run ++ strConcat []
              else st.output_before_first_run
            tmp := if st.intermit then st.tmp ++ [] else st.tmp } = st := by
        obtain ⟨o, dd, kw, pl, io, bf, im, tp, md⟩ := st
        by_cases h1 : bf <;> by_cases h2 : im <;>
          simp [h1, h2, strConcat, str_append_empty]
      rw [List.nil_append, he]
  | cons l ls ih =>
      intro st rest hm hns
      have hl : startsAnyB l = false := hns l (List.mem_cons_self _ _)
      have hrest : ∀ x ∈ ls, startsAnyB x = false :=
        fun x hx => hns x (List.mem_cons.mpr (Or.inr hx))
      rw [List.cons_append, segRunLines_cons, segStep_scan _ _ hm,
        startCheck_neg _ _ hl, topAppends_eq]
      have hih := ih
        { st with
          output_before_first_run :=
            if st.beforeFirst then st.output_before_first_run ++ l
            else st.output_before_first_run
          tmp := if st.intermit then st.tmp ++ [l] else st.tmp } rest hm hrest
      rw [hih]
      congr 1
      obtain ⟨o, dd, kw, pl, io, bf, im, tp, md⟩ := st
      by_cases h1 : bf <;> by_cases h2 : im <;>
        simp [h1, h2, strConcat, str_append_assoc]

theorem segRun_collect (rows : List String) :
    ∀ (st : SegAcc) (kw buf : List String) (rest : List String),
    st.mode = SegMode.collect kw buf →
    (∀ l ∈ rows, stopsAnyB l = false ∧ hasNL l = true) →
    segRunLines st (rows ++ rest) =
      segRunLines { st with mode := SegMode.collect kw (buf ++ rows) } rest := by
  induction rows with
  | nil =>
      intro st kw buf rest hm hrows
      rw [List.nil_append]
      have he : { st with mode := SegMode.collect kw (buf ++ []) } = st := by
        obtain ⟨o, dd, kw2, pl, io, bf, im, tp, md⟩ := st
        simp only [SegAcc.mk.injEq] at hm ⊢
        simp [hm, List.append_nil]
      rw [he]
  | cons l rows ih =>
      intro st kw buf rest hm hrows
      obtain ⟨hstop, hnl⟩ := hrows l (List.mem_cons_self _ _)
      have hbuf : (if hasNL l then [l] else ([] : List String)) = [l] := by simp [hnl]
      have hih := ih { st with mode := SegMode.collect kw (buf ++ [l]) } kw (buf ++ [l]) rest
        rfl (fun x hx => hrows x (List.mem_cons.mpr (Or.inr hx)))
      rw [List.cons_append, segRunLines_cons, segStep_collect_go st l kw buf hm hstop, hbuf, hih]
      congr 1
      simp

/-! ## One block of input, consumed from scan mode -/

theorem segRun_block (st : SegAcc) (bk : Block) (rest : List String)
    (hm : st.mode = SegMode.scan) (hw : WFBlock bk) :
    segRunLines st (fullLines bk ++ rest) = segRunLines (afterBlock st bk) rest := by
  obtain ⟨hstart, hhstop, hhnl, hhinl, hkwne, hkwnd, hrows, hsstop, hsstart, hgap⟩ := hw
  obtain ⟨o, dd, kw0, pl, io, bf, im, tp, md⟩ := st
  replace hm : md = SegMode.scan := hm
  subst hm
  have e1 : fullLines bk ++ rest =
      bk.startLine :: bk.headerLine :: (bk.rowLines ++ (bk.stopLine :: (bk.gap ++ rest))) := by
    simp [fullLines]
  rw [e1, segRunLines_cons, segStep_scan _ _ rfl, startCheck_pos _ _ hstart, topAppends_eq]
  rw [segRunLines_cons, segStep_header_go _ _ rfl hhstop, topAppends_eq]
  have hhb : (if hasNL bk.headerLine then [bk.headerLine] else []) = [bk.headerLine] := by
    simp [hhnl]
  rw [hhb]
  rw [segRun_collect bk.rowLines _ _ _ _ rfl
    (fun l hl => ⟨(hrows l hl).1, (hrows l hl).2.1⟩)]
  rw [segRunLines_cons, segStep_collect_stop _ _ _ _ rfl hsstop, startCheck_neg _ _ hsstart]
  rw [segRun_scan bk.gap _ rest rfl hgap]
  congr 1

/-! ## Projections of block consumption -/

theorem mergePair_eq (dd : Dataset) (kw : List String) (buf : List String) :
    mergePair dd kw buf =
      (kw.foldl (fun d n => dset d n ((dlookup d n).getD [] ++ readTableCol buf n)) dd,
       kw.foldl (fun d n => dset d n (readTableCol buf n)) []) := by
  unfold mergePair
  exact foldl_pair_split kw
    (fun d n => dset d n ((dlookup d n).getD [] ++ readTableCol buf n))
    (fun d n => dset d n (readTableCol buf n)) dd []

theorem flushDict_lookup (kw : List String) (key : String) :
    dlookup (flushDict kw) key = if key ∈ kw then some [] else none := by
  unfold flushDict
  rw [constFold_lookup (fun _ => ([] : List Cell)) kw [] key]
  rfl

theorem afterBlock_mode (st : SegAcc) (b : Block) : (afterBlock st b).mode = SegMode.scan := rfl

theorem afterBlock_beforeFirst (st : SegAcc) (b : Block) :
    (afterBlock st b).beforeFirst = false := rfl

theorem afterBlock_intermit (st : SegAcc) (b : Block) : (afterBlock st b).intermit = true := rfl

theorem afterBlock_tmp (st : SegAcc) (b : Block) : (afterBlock st b).tmp = b.gap := rfl

theorem afterBlock_keywords (st : SegAcc) (b : Block) :
    (afterBlock st b).keywords = blockKw b := rfl

theorem afterBlock_obfr (st : SegAcc) (b : Block) :
    (afterBlock st b).output_before_first_run =
      if st.beforeFirst then st.output_before_first_run ++ b.startLine
      else st.output_before_first_run := rfl

theorem afterBlock_inter (st : SegAcc) (b : Block) :
    (afterBlock st b).intermittent_output =
      st.intermittent_output ++ [if st.intermit then st.tmp ++ [b.startLine] else st.tmp] := rfl

theorem afterBlock_partial_logs (st : SegAcc) (b : Block) :
    (afterBlock st b).partial_logs = st.partial_logs ++ [pdictOf b] := by
  show (finalizeBlock _ (blockKw b) (blockBuf b)).partial_logs = _
  simp only [finalizeBlock, mergePair_eq]
  simp [pdictOf, blockCol]

theorem afterBlock_data_dict_lookup (st : SegAcc) (b : Block)
    (hnd : (blockKw b).Nodup) (key : String) :
    dlookup (afterBlock st b).data_dict key =
      if key ∈ blockKw b then
        some ((dlookup (if st.keywords = blockKw b then st.data_dict
            else flushDict (blockKw b)) key).getD [] ++ blockCol b key)
      else dlookup (if st.keywords = blockKw b then st.data_dict
            else flushDict (blockKw b)) key := by
  show dlookup (finalizeBlock { st with
      output_before_first_run := if st.beforeFirst then st.output_before_first_run ++ b.startLine
        else st.output_before_first_run,
      tmp := if st.intermit then st.tmp ++ [b.startLine] else st.tmp,
      beforeFirst := false, intermit := false } (blockKw b) (blockBuf b)).data_dict key = _
  simp only [finalizeBlock, mergePair_eq]
  rw [mergeFold_lookup (readTableCol (blockBuf b)) (blockKw b) hnd]
  rfl

/-! ## Iterated block consumption -/

theorem afterBlocks_nil (st : SegAcc) : afterBlocks st [] = st := rfl

theorem afterBlocks_cons (st : SegAcc) (b : Block) (bs : List Block) :
    afterBlocks st (b :: bs) = afterBlocks (afterBlock st b) bs := rfl

theorem segRun_blocks (bs : List Block) :
    ∀ (st : SegAcc) (rest : List String), st.mode = SegMode.scan →
    (∀ b ∈ bs, WFBlock b) →
    segRunLines st ((bs.map fullLines).flatten ++ rest) =
      segRunLines (afterBlocks st bs) rest := by
  induction bs with
  | nil => intro st rest hm hw; rfl
  | cons b bs ih =>
      intro st rest hm hw
      have e1 : ((b :: bs).map fullLines).flatten ++ rest =
          fullLines b ++ ((bs.map fullLines).flatten ++ rest) := by
        simp
      rw [e1, segRun_block st b _ hm (hw b (List.mem_cons_self _ _)),
        ih (afterBlock st b) rest (afterBlock_mode st b)
          (fun x hx => hw x (List.mem_cons.mpr (Or.inr hx))),
        afterBlocks_cons]

theorem afterBlocks_mode (bs : List Block) :
    ∀ st : SegAcc, st.mode = SegMode.scan → (afterBlocks st bs).mode = SegMode.scan := by
  induction bs with
  | nil => intro st h; exact h
  | cons b bs ih => intro st h; exact ih (afterBlock st b) (afterBlock_mode st b)

theorem afterBlocks_partial_logs (bs : List Block) :
    ∀ st : SegAcc, (afterBlocks st bs).partial_logs = st.partial_logs ++ bs.map pdictOf := by
  induction bs with
  | nil => intro st; simp [afterBlocks_nil]
  | cons b bs ih =>
      intro st
      rw [afterBlocks_cons, ih, afterBlock_partial_logs]
      simp

theorem afterBlocks_inter (bs : List Block) :
    ∀ st : SegAcc, (afterBlocks st bs).intermittent_output =
      st.intermittent_output ++ chunksFrom st.tmp st.intermit bs := by
  induction bs with
  | nil => intro st; simp [afterBlocks_nil, chunksFrom]
  | cons b bs ih =>
      intro st
      rw [afterBlocks_cons, ih, afterBlock_inter, afterBlock_tmp, afterBlock_intermit]
      show _ = st.intermittent_output ++
        ((if st.intermit then st.tmp ++ [b.startLine] else st.tmp) :: chunksFrom b.gap true bs)
      simp

theorem chunksFrom_length (bs : List Block) :
    ∀ (t : List String) (m : Bool), (chunksFrom t m bs).length = bs.length := by
  induction bs with
  | nil => intro t m; rfl
  | cons b bs ih => intro t m; simp [chunksFrom, ih]

theorem afterBlocks_obfr_false (bs : List Block) :
    ∀ st : SegAcc, st.beforeFirst = false →
      (afterBlocks st bs).output_before_first_run = st.output_before_first_run ∧
      (afterBlocks st bs).beforeFirst = false := by
  induction bs with
  | nil => intro st h; exact ⟨rfl, h⟩
  | cons b bs ih =>
      intro st h
      rw [afterBlocks_cons]
      have h2 := ih (afterBlock st b) (afterBlock_beforeFirst st b)
      rw [h2.1, afterBlock_obfr, h]
      exact ⟨by simp, h2.2⟩

theorem afterBlocks_obfr_first (st : SegAcc) (b : Block) (bs : List Block)
    (h : st.beforeFirst = true) :
    (afterBlocks st (b :: bs)).output_before_first_run =
      st.output_before_first_run ++ b.startLine := by
  rw [afterBlocks_cons,
    (afterBlocks_obfr_false bs (afterBlock st b) (afterBlock_beforeFirst st b)).1,
    afterBlock_obfr, h]
  simp

/-! ## The data dictionary tracks the aggregate of the current schema epoch -/

/-- Extensional description of data_dict: defined exactly on the tracked
keywords, with column contents given by the function A. -/
def DictAgg (st : SegAcc) (A : String → List Cell) : Prop :=
  ∀ c, dlookup st.data_dict c = if c ∈ st.keywords then some (A c) else none

theorem afterBlock_dictAgg (st : SegAcc) (b : Block) (A : String → List Cell)
    (h : DictAgg st A) (hnd : (blockKw b).Nodup) :
    DictAgg (afterBlock st b) (aggStep (st.keywords, A) b).2 ∧
    (afterBlock st b).keywords = (aggStep (st.keywords, A) b).1 := by
  constructor
  · intro c
    rw [afterBlock_data_dict_lookup st b hnd c, afterBlock_keywords]
    by_cases he : st.keywords = blockKw b
    · by_cases hc : c ∈ blockKw b
      · have hcst : c ∈ st.keywords := by rw [he]; exact hc
        simp [aggStep, he, hc, h c, hcst]
      · have hcst : c ∉ st.keywords := by rw [he]; exact hc
        simp [aggStep, he, hc, h c, hcst]
    · have hne : ¬ blockKw b = st.keywords := fun hh => he hh.symm
      by_cases hc : c ∈ blockKw b <;>
        simp [aggStep, he, hne, hc, flushDict_lookup]
  · rw [afterBlock_keywords]
    by_cases he : blockKw b = st.keywords <;> simp [aggStep, he]

theorem afterBlocks_dictAgg (bs : List Block) :
    ∀ (st : SegAcc) (A : String → List Cell), DictAgg st A →
    (∀ b ∈ bs, (blockKw b).Nodup) →
    DictAgg (afterBlocks st bs) (aggFold (st.keywords, A) bs).2 ∧
    (afterBlocks st bs).keywords = (aggFold (st.keywords, A) bs).1 := by
  induction bs with
  | nil => intro st A h hnd; exact ⟨h, rfl⟩
  | cons b bs ih =>
      intro st A h hnd
      obtain ⟨h1, h2⟩ := afterBlock_dictAgg st b A h (hnd b (List.mem_cons_self _ _))
      have ihh := ih (afterBlock st b) (aggStep (st.keywords, A) b).2 h1
        (fun x hx => hnd x (List.mem_cons.mpr (Or.inr hx)))
      rw [afterBlocks_cons]
      have e : aggFold (st.keywords, A) (b :: bs) =
          aggFold ((afterBlock st b).keywords, (aggStep (st.keywords, A) b).2) bs := by
        unfold aggFold
        rw [List.foldl_cons, h2]
      rw [e]
      exact ihh

/-! ## The final schema epoch -/

theorem finalEpoch_nil : finalEpoch [] = [] := rfl

theorem finalEpoch_singleton (b : Block) : finalEpoch [b] = [b] := by
  unfold finalEpoch
  simp

theorem finalEpoch_concat_same (p : List Block) (b : Block) (hp : p ≠ [])
    (h : blockKw b = blockKw (p.getLast hp)) :
    finalEpoch (p ++ [b]) = finalEpoch p ++ [b] := by
  unfold finalEpoch
  rw [List.getLast?_concat, List.getLast?_eq_getLast p hp]
  simp only []
  have e1 : (p ++ [b]).reverse = b :: p.reverse := by simp
  rw [e1, List.takeWhile_cons_of_pos (by simp), List.reverse_cons]
  congr 1
  rw [h]

theorem finalEpoch_concat_diff (p : List Block) (b : Block) (hp : p ≠ [])
    (h : blockKw b ≠ blockKw (p.getLast hp)) :
    finalEpoch (p ++ [b]) = [b] := by
  unfold finalEpoch
  rw [List.getLast?_concat]
  simp only []
  have e1 : (p ++ [b]).reverse = b :: p.reverse := by simp
  have e3 : p.reverse = p.getLast hp :: p.dropLast.reverse := by
    conv_lhs => rw [← List.dropLast_append_getLast hp]
    simp
  rw [e1, List.takeWhile_cons_of_pos (by simp), e3,
    List.takeWhile_cons_of_neg (by
      simp only [decide_eq_true_eq]
      exact fun hh => h hh.symm)]
  simp

theorem finalEpoch_all (bs : List Block) (K : List String)
    (h : ∀ b ∈ bs, blockKw b = K) : finalEpoch bs = bs := by
  cases hb : bs.getLast? with
  | none =>
      rw [List.getLast?_eq_none.mp hb]
      rfl
  | some lb =>
      have hne : bs ≠ [] := by
        intro hh
        subst hh
        cases hb
      unfold finalEpoch
      rw [hb]
      simp only []
      have hlb : lb = bs.getLast hne := by
        have := List.getLast?_eq_getLast bs hne
        rw [hb] at this
        exact Option.some.inj this
      have hall : ∀ x ∈ bs.reverse, (fun b => decide (blockKw b = blockKw lb)) x = true := by
        intro x hx
        simp only [decide_eq_true_eq]
        rw [h x (List.mem_reverse.mp hx), h lb (hlb ▸ List.getLast_mem hne)]
      rw [List.takeWhile_eq_self_iff.mpr hall, List.reverse_reverse]

theorem aggFold_concat (A0 : String → List Cell) (K0 : List String)
    (p : List Block) (b : Block) :
    aggFold (K0, A0) (p ++ [b]) = aggStep (aggFold (K0, A0) p) b := by
  unfold aggFold
  rw [List.foldl_append]
  rfl

theorem aggFold_spec (A0 : String → List Cell) (bs : List Block) :
    ∀ lb : Block, bs.getLast? = some lb → (∀ b ∈ bs, blockKw b ≠ []) →
    (aggFold ([], A0) bs).1 = blockKw lb ∧
    ∀ c, (aggFold ([], A0) bs).2 c = epochAgg bs c := by
  induction bs using List.reverseRecOn with
  | nil => intro lb h; cases h
  | append_singleton p b ih =>
      intro lb hlb hkw
      rw [List.getLast?_concat] at hlb
      replace hlb : lb = b := (Option.some.inj hlb).symm
      subst hlb
      rw [aggFold_concat]
      cases hp : p.getLast? with
      | none =>
          have hpnil : p = [] := List.getLast?_eq_none.mp hp
          subst hpnil
          have hbk : blockKw lb ≠ [] := hkw lb (by simp)
          constructor
          · show (aggStep ([], A0) lb).1 = blockKw lb
            unfold aggStep
            rw [if_neg (by simpa using hbk)]
          · intro c
            show (aggStep ([], A0) lb).2 c = epochAgg [lb] c
            unfold aggStep
            rw [if_neg (by simpa using hbk)]
            simp [epochAgg, finalEpoch_singleton]
      | some lp =>
          have hpne : p ≠ [] := by
            intro hh
            subst hh
            cases hp
          have hlpg : lp = p.getLast hpne := by
            have := List.getLast?_eq_getLast p hpne
            rw [hp] at this
            exact Option.some.inj this
          obtain ⟨ih1, ih2⟩ := ih lp hp
            (fun x hx => hkw x (List.mem_append.mpr (Or.inl hx)))
          by_cases hsame : blockKw lb = blockKw lp
          · constructor
            · unfold aggStep
              rw [ih1, if_pos hsame]
              exact hsame.symm
            · intro c
              unfold aggStep
              rw [ih1, if_pos hsame]
              show (aggFold ([], A0) p).2 c ++ blockCol lb c = _
              rw [ih2 c]
              unfold epochAgg
              rw [finalEpoch_concat_same p lb hpne (hlpg ▸ hsame)]
              simp
          · constructor
            · unfold aggStep
              rw [ih1, if_neg hsame]
            · intro c
              unfold aggStep
              rw [ih1, if_neg hsame]
              show blockCol lb c = _
              unfold epochAgg
              rw [finalEpoch_concat_diff p lb hpne (hlpg ▸ hsame)]
              simp

/-! ## Top-level segmentation results -/

theorem str_empty_append (s : String) : "" ++ s = s := by
  cases s with
  | mk d => apply congrArg String.mk; exact List.nil_append d

theorem segFinish_scan (st : SegAcc) (h : st.mode = SegMode.scan) : segFinish st = st := by
  unfold segFinish
  rw [h]

theorem read_mkLog (pre : List String) (bs : List Block)
    (hpre : ∀ l ∈ pre, startsAnyB l = false) (hw : ∀ b ∈ bs, WFBlock b) :
    read_file_to_dict (mkLog pre bs) =
      { afterBlocks { initSeg with output_before_first_run := strConcat pre } bs with
        intermittent_output :=
          (afterBlocks { initSeg with output_before_first_run := strConcat pre }
            bs).intermittent_output.drop 1 } := by
  unfold read_file_to_dict mkLog
  have h1 : pre ++ (bs.map fullLines).flatten =
      pre ++ ((bs.map fullLines).flatten ++ []) := by simp
  rw [h1, segRun_scan pre initSeg _ rfl hpre]
  have h2 : { initSeg with
      output_before_first_run :=
        if initSeg.beforeFirst then initSeg.output_before_first_run ++ strConcat pre
        else initSeg.output_before_first_run,
      tmp := if initSeg.intermit then initSeg.tmp ++ pre else initSeg.tmp } =
      { initSeg with output_before_first_run := strConcat pre } := by
    simp [initSeg, str_empty_append]
  rw [h2, segRun_blocks bs _ [] rfl hw, segRunLines_nil,
    segFinish_scan _ (afterBlocks_mode bs _ rfl)]

theorem read_noMarker (contents : List String)
    (h : ∀ l ∈ contents, startsAnyB l = false) :
    read_file_to_dict contents =
      { initSeg with output_before_first_run := strConcat contents } := by
  unfold read_file_to_dict
  rw [show contents = contents ++ [] from (List.append_nil _).symm,
    segRun_scan contents initSeg [] rfl h, segRunLines_nil]
  rw [segFinish_scan _ rfl]
  simp [initSeg, str_empty_append]

/-! ## Columns of a well-formed block -/

theorem tableLines_blockBuf (b : Block) (hw : WFBlock b) :
    tableLines (blockBuf b) = blockKw b :: b.rowLines.map tokenize := by
  obtain ⟨hstart, hhstop, hhnl, hhinl, hkwne, hkwnd, hrows, hsstop, hsstart, hgap⟩ := hw
  unfold tableLines blockBuf
  have hcond : (!(tokenize b.headerLine).isEmpty) = true := by
    cases he : tokenize b.headerLine with
    | nil => exact absurd he hkwne
    | cons x xs => rfl
  rw [List.map_cons, List.filter_cons, if_pos hcond]
  congr 1
  rw [List.filter_eq_self]
  intro a ha
  obtain ⟨l, hl, rfl⟩ := List.mem_map.mp ha
  have := (hrows l hl).2.2.2.1
  simpa using this

theorem blockCol_spec (b : Block) (hw : WFBlock b) (c : String) (hc : c ∈ blockKw b) :
    ∃ idx : Nat, (blockKw b).findIdx? (fun t => t == c) = some idx ∧
      blockCol b c = b.rowLines.map (fun r => (tokenize r)[idx]?) := by
  cases hidx : (blockKw b).findIdx? (fun t => t == c) with
  | none =>
      exfalso
      have := List.findIdx?_eq_none_iff.mp hidx c hc
      simp at this
  | some idx =>
      refine ⟨idx, rfl, ?_⟩
      unfold blockCol readTableCol
      rw [tableLines_blockBuf b hw]
      show (match (blockKw b).findIdx? (fun t => t == c) with
        | none => ([] : List Cell)
        | some idx2 => (b.rowLines.map tokenize).map (fun r => r[idx2]?)) = _
      rw [hidx]
      simp [List.map_map, Function.comp]

theorem blockCol_length (b : Block) (hw : WFBlock b) (c : String) (hc : c ∈ blockKw b) :
    (blockCol b c).length = b.rowLines.length := by
  obtain ⟨idx, _, he⟩ := blockCol_spec b hw c hc
  rw [he, List.length_map]

/-! ## Construction of a File object -/

theorem get_agg (f : File) (c : String) :
    f.get c (-1) = Except.ok (dlookup f.seg.data_dict c) := by
  unfold File.get
  rw [if_pos rfl]

theorem build_eq (contents : List String)
    (h : ¬ (read_file_to_dict contents).output_before_first_run = "") :
    File.build contents =
      Except.ok
        { seg := read_file_to_dict contents
          simulation_settings :=
            chainFinal
              ((pySplitlines (read_file_to_dict contents).output_before_first_run).foldl
                (fun s l => dupdate s (parse_line l)) [])
              (read_file_to_dict contents).intermittent_output
          partial_simulation_settings :=
            ((pySplitlines (read_file_to_dict contents).output_before_first_run).foldl
                (fun s l => dupdate s (parse_line l)) []) ::
              settingsChain
                ((pySplitlines (read_file_to_dict contents).output_before_first_run).foldl
                  (fun s l => dupdate s (parse_line l)) [])
                (read_file_to_dict contents).intermittent_output } := by
  unfold File.build parse_simulation_settings
  rw [if_neg h]
  simp

theorem mkLog_obfr (pre : List String) (bs : List Block)
    (hpre : ∀ l ∈ pre, startsAnyB l = false) (hw : ∀ b ∈ bs, WFBlock b)
    (hne : bs ≠ []) :
    (read_file_to_dict (mkLog pre bs)).output_before_first_run =
      strConcat pre ++ (bs.head hne).startLine := by
  cases bs with
  | nil => cases hne rfl
  | cons b bs2 =>
      rw [read_mkLog pre (b :: bs2) hpre hw]
      show (afterBlocks _ (b :: bs2)).output_before_first_run = _
      rw [afterBlocks_obfr_first _ b bs2 rfl]
      rfl

theorem mkLog_obfr_ne (pre : List String) (bs : List Block)
    (hpre : ∀ l ∈ pre, startsAnyB l = false) (hw : ∀ b ∈ bs, WFBlock b)
    (hne : bs ≠ []) :
    ¬ (read_file_to_dict (mkLog pre bs)).output_before_first_run = "" := by
  rw [mkLog_obfr pre bs hpre hw hne]
  exact append_ne_empty_right _ _
    (startsAny_ne_empty _ (hw _ (List.head_mem hne)).1)

/-! # Claims -/

/-! ## Access helpers -/

theorem pdictOf_lookup (b : Block) (c : String) :
    dlookup (pdictOf b) c = if c ∈ blockKw b then some (blockCol b c) else none := by
  unfold pdictOf
  rw [constFold_lookup (fun n => blockCol b n) (blockKw b) [] c]
  rfl

theorem get_nonneg (f : File) (c : String) (k : Nat) (hk : k < f.seg.partial_logs.length) :
    f.get c (k : Int) = Except.ok (dlookup (f.seg.partial_logs.get ⟨k, hk⟩) c) := by
  unfold File.get
  rw [if_neg (by omega), if_pos (by exact_mod_cast hk)]
  unfold pyIndex
  rw [if_pos (by exact_mod_cast Nat.zero_le k), show ((k : Int)).toNat = k from by simp,
    List.getElem?_eq_getElem hk]
  rfl

theorem get_big (f : File) (c : String) (k : Nat)
    (hk : f.seg.partial_logs.length ≤ k) : f.get c (k : Int) = Except.ok none := by
  unfold File.get
  rw [if_neg (by omega), if_neg (by exact_mod_cast Nat.not_lt.mpr hk)]

theorem get_neg_small (f : File) (c : String) (run : Int) (h2 : run ≤ -2)
    (h3 : run < -(f.seg.partial_logs.length : Int)) :
    f.get c run = Except.error "IndexError" := by
  unfold File.get
  rw [if_neg (by omega), if_pos (by omega)]
  unfold pyIndex
  rw [if_neg (by omega), if_neg (by omega)]

theorem get_neg_alias (f : File) (c : String) (run : Int) (h2 : run ≤ -2)
    (h3 : -(f.seg.partial_logs.length : Int) ≤ run) :
    f.get c run = f.get c (run + f.seg.partial_logs.length) := by
  unfold File.get
  rw [if_neg (by omega), if_pos (by omega), if_neg (by omega), if_pos (by omega)]
  unfold pyIndex
  rw [if_neg (by omega), if_pos (by omega), if_pos (by omega)]
  have he : f.seg.partial_logs.length - run.natAbs = (run + f.seg.partial_logs.length).toNat := by
    omega
  rw [he]

theorem kw_nonneg (f : File) (k : Nat) (hk : k < f.seg.partial_logs.length) :
    f.get_keywords (k : Int) =
      Except.ok (some (insSort (dkeys (f.seg.partial_logs.get ⟨k, hk⟩)))) := by
  unfold File.get_keywords
  rw [if_neg (by omega), if_pos (by exact_mod_cast hk)]
  unfold pyIndex
  rw [if_pos (by exact_mod_cast Nat.zero_le k), show ((k : Int)).toNat = k from by simp,
    List.getElem?_eq_getElem hk]
  rfl

theorem kw_big (f : File) (k : Nat)
    (hk : f.seg.partial_logs.length ≤ k) : f.get_keywords (k : Int) = Except.ok none := by
  unfold File.get_keywords
  rw [if_neg (by omega), if_neg (by exact_mod_cast Nat.not_lt.mpr hk)]

theorem kw_neg_small (f : File) (run : Int) (h2 : run ≤ -2)
    (h3 : run < -(f.seg.partial_logs.length : Int)) :
    f.get_keywords run = Except.error "IndexError" := by
  unfold File.get_keywords
  rw [if_neg (by omega), if_pos (by omega)]
  unfold pyIndex
  rw [if_neg (by omega), if_neg (by omega)]

theorem kw_neg_alias (f : File) (run : Int) (h2 : run ≤ -2)
    (h3 : -(f.seg.partial_logs.length : Int) ≤ run) :
    f.get_keywords run = f.get_keywords (run + f.seg.partial_logs.length) := by
  unfold File.get_keywords
  rw [if_neg (by omega), if_pos (by omega), if_neg (by omega), if_pos (by omega)]
  unfold pyIndex
  rw [if_neg (by omega), if_pos (by omega), if_pos (by omega)]
  have he : f.seg.partial_logs.length - run.natAbs = (run + f.seg.partial_logs.length).toNat := by
    omega
  rw [he]

/-- C1: for every input log containing R tabular blocks that all share the same
ColumnSet, construction succeeds, get_num_partial_logs returns R, and for every
column name of that ColumnSet the aggregate sequence returned by get with run
number -1 has length equal to the sum over the R blocks of their row counts. -/
theorem claim_C1 (pre : List String) (bs : List Block) (K : List String)
    (hpre : ∀ l ∈ pre, startsAnyB l = false)
    (hw : ∀ b ∈ bs, WFBlock b)
    (hK : ∀ b ∈ bs, blockKw b = K)
    (hne : bs ≠ []) :
    ∃ f : File, File.build (mkLog pre bs) = Except.ok f ∧
      f.get_num_partial_logs = bs.length ∧
      ∀ c ∈ K, ∃ v : List Cell, f.get c (-1) = Except.ok (some v) ∧
        v.length = (bs.map (fun b => b.rowLines.length)).sum := by
  have hobfr := mkLog_obfr_ne pre bs hpre hw hne
  refine ⟨_, build_eq (mkLog pre bs) hobfr, ?_, ?_⟩
  · show (read_file_to_dict (mkLog pre bs)).partial_logs.length = bs.length
    rw [read_mkLog pre bs hpre hw]
    show (afterBlocks { initSeg with output_before_first_run := strConcat pre }
      bs).partial_logs.length = bs.length
    rw [afterBlocks_partial_logs]
    simp [initSeg]
  · intro c hc
    have hDA : DictAgg { initSeg with output_before_first_run := strConcat pre }
        (fun _ => ([] : List Cell)) := by
      intro c2
      rfl
    have hnd : ∀ b ∈ bs, (blockKw b).Nodup := fun b hb => (hw b hb).2.2.2.2.2.1
    obtain ⟨h1, h2⟩ := afterBlocks_dictAgg bs _ _ hDA hnd
    have hkeq : ({ initSeg with output_before_first_run := strConcat pre } :
        SegAcc).keywords = ([] : List String) := rfl
    rw [hkeq] at h1 h2
    have hlast : bs.getLast? = some (bs.getLast hne) := List.getLast?_eq_getLast bs hne
    have hkone : ∀ b ∈ bs, blockKw b ≠ [] := fun b hb => (hw b hb).2.2.2.2.1
    obtain ⟨hspec1, hspec2⟩ :=
      aggFold_spec (fun _ => ([] : List Cell)) bs (bs.getLast hne) hlast hkone
    have hKlast : blockKw (bs.getLast hne) = K := hK _ (List.getLast_mem hne)
    have hlook : dlookup (read_file_to_dict (mkLog pre bs)).data_dict c =
        some (epochAgg bs c) := by
      rw [read_mkLog pre bs hpre hw]
      show dlookup (afterBlocks { initSeg with
        output_before_first_run := strConcat pre } bs).data_dict c = _
      rw [h1 c, if_pos (by rw [h2, hspec1, hKlast]; exact hc), hspec2 c]
    refine ⟨epochAgg bs c, ?_, ?_⟩
    · rw [get_agg]
      show Except.ok (dlookup (read_file_to_dict (mkLog pre bs)).data_dict c) = _
      rw [hlook]
    · unfold epochAgg
      rw [finalEpoch_all bs K hK, List.length_flatten, List.map_map]
      exact congrArg List.sum (List.map_congr_left (fun b hb => by
        simp only [Function.comp]
        exact blockCol_length b (hw b hb) c (by rw [hK b hb]; exact hc)))

/-- Witness for C1 at a concrete two-block log with shared columns Step and
Temp. -/
theorem claim_C1_witness :
    ∃ f : File, File.build (mkLog ["units lj\n"] [demoBlockA, demoBlockB]) = Except.ok f ∧
      f.get_num_partial_logs = [demoBlockA, demoBlockB].length ∧
      ∀ c ∈ ["Step", "Temp"], ∃ v : List Cell, f.get c (-1) = Except.ok (some v) ∧
        v.length = ([demoBlockA, demoBlockB].map (fun b => b.rowLines.length)).sum :=
  claim_C1 ["units lj\n"] [demoBlockA, demoBlockB] ["Step", "Temp"]
    (by decide) (by decide) (by decide) (by decide)

/-- C2: when tabular blocks do not all share one ColumnSet, the aggregate
dataset holds exactly the rows of the final contiguous sequence of blocks
sharing the ColumnSet of the last block (earlier schema epochs are discarded
and columns outside the final ColumnSet are absent), while every per-run
dataset still holds exactly the values of its own block.  The theorem is
proved for every well-formed block sequence, uniform or not. -/
theorem claim_C2 (pre : List String) (bs : List Block)
    (hpre : ∀ l ∈ pre, startsAnyB l = false)
    (hw : ∀ b ∈ bs, WFBlock b)
    (hne : bs ≠ []) :
    ∃ f : File, File.build (mkLog pre bs) = Except.ok f ∧
      (∀ c ∈ blockKw (bs.getLast hne),
        f.get c (-1) = Except.ok (some (epochAgg bs c))) ∧
      (∀ c, c ∉ blockKw (bs.getLast hne) → f.get c (-1) = Except.ok none) ∧
      (∀ (k : Nat) (hk : k < bs.length) (c : String),
        f.get c (k : Int) =
          Except.ok (if c ∈ blockKw (bs.get ⟨k, hk⟩)
            then some (blockCol (bs.get ⟨k, hk⟩) c) else none)) := by
  have hobfr := mkLog_obfr_ne pre bs hpre hw hne
  have hDA : DictAgg { initSeg with output_before_first_run := strConcat pre }
      (fun _ => ([] : List Cell)) := fun _ => rfl
  have hnd : ∀ b ∈ bs, (blockKw b).Nodup := fun b hb => (hw b hb).2.2.2.2.2.1
  obtain ⟨h1, h2⟩ := afterBlocks_dictAgg bs _ _ hDA hnd
  have hkeq : ({ initSeg with output_before_first_run := strConcat pre } :
      SegAcc).keywords = ([] : List String) := rfl
  rw [hkeq] at h1 h2
  have hlast : bs.getLast? = some (bs.getLast hne) := List.getLast?_eq_getLast bs hne
  have hkone : ∀ b ∈ bs, blockKw b ≠ [] := fun b hb => (hw b hb).2.2.2.2.1
  obtain ⟨hspec1, hspec2⟩ :=
    aggFold_spec (fun _ => ([] : List Cell)) bs (bs.getLast hne) hlast hkone
  have hpl : (read_file_to_dict (mkLog pre bs)).partial_logs = bs.map pdictOf := by
    rw [read_mkLog pre bs hpre hw]
    show (afterBlocks { initSeg with output_before_first_run := strConcat pre }
      bs).partial_logs = _
    rw [afterBlocks_partial_logs]
    rfl
  have hlook : ∀ c, dlookup (read_file_to_dict (mkLog pre bs)).data_dict c =
      if c ∈ blockKw (bs.getLast hne) then some (epochAgg bs c) else none := by
    intro c
    rw [read_mkLog pre bs hpre hw]
    show dlookup (afterBlocks { initSeg with
      output_before_first_run := strConcat pre } bs).data_dict c = _
    rw [h1 c, h2, hspec1]
    by_cases hc : c ∈ blockKw (bs.getLast hne)
    · rw [if_pos hc, if_pos hc, hspec2 c]
    · rw [if_neg hc, if_neg hc]
  refine ⟨_, build_eq (mkLog pre bs) hobfr, ?_, ?_, ?_⟩
  · intro c hc
    rw [get_agg]
    show Except.ok (dlookup (read_file_to_dict (mkLog pre bs)).data_dict c) = _
    rw [hlook c, if_pos hc]
  · intro c hc
    rw [get_agg]
    show Except.ok (dlookup (read_file_to_dict (mkLog pre bs)).data_dict c) = _
    rw [hlook c, if_neg hc]
  · intro k hk c
    have hk2 : k < (read_file_to_dict (mkLog pre bs)).partial_logs.length := by
      rw [hpl, List.length_map]
      exact hk
    rw [get_nonneg _ c k hk2]
    congr 1
    have h4 : (read_file_to_dict (mkLog pre bs)).partial_logs[k]? =
        some (pdictOf (bs.get ⟨k, hk⟩)) := by
      rw [hpl, List.getElem?_map, List.getElem?_eq_getElem hk]
      rfl
    have h5 := List.getElem?_eq_getElem hk2
    rw [h5] at h4
    have hget : (read_file_to_dict (mkLog pre bs)).partial_logs.get ⟨k, hk2⟩ =
        pdictOf (bs.get ⟨k, hk⟩) := Option.some.inj h4
    rw [hget, pdictOf_lookup]

/-- Witness for C2 at a concrete log whose second block changes the ColumnSet
from Step, Temp to Step, Press. -/
theorem claim_C2_witness :
    ∃ f : File, File.build (mkLog ["units lj\n"] [demoBlockA, demoBlockC]) = Except.ok f ∧
      f.get "Press" (-1) = Except.ok (some (epochAgg [demoBlockA, demoBlockC] "Press")) ∧
      f.get "Temp" (-1) = Except.ok none ∧
      f.get "Temp" (0 : Int) = Except.ok (some (blockCol demoBlockA "Temp")) := by
  obtain ⟨f, hbuild, hagg, hnone, hrun⟩ :=
    claim_C2 ["units lj\n"] [demoBlockA, demoBlockC] (by decide) (by decide) (by decide)
  refine ⟨f, hbuild, hagg "Press" (by decide), hnone "Temp" (by decide), ?_⟩
  have := hrun 0 (by decide) "Temp"
  rw [show (0 : Int) = ((0 : Nat) : Int) from rfl, this]
  congr 1

theorem append_ne_empty_left (a b : String) (h : a ≠ "") : a ++ b ≠ "" := by
  intro hh
  have h2 : (a ++ b).data = [] := by rw [hh]
  rw [str_data_append] at h2
  have h3 := (List.append_eq_nil.mp h2).1
  apply h
  cases a with
  | mk d => cases h3; rfl

theorem strConcat_ne_empty (l : String) (ls : List String) (h : l ≠ "") :
    strConcat (l :: ls) ≠ "" := by
  show l ++ strConcat ls ≠ ""
  exact append_ne_empty_left l _ h

/-- C3 as amended: on a non-empty input without any start-marker line,
construction succeeds (the settings pass does not raise, because the whole
file becomes the pre-run narrative), the run count is 0, get returns the
not-found sentinel for run -1 and for every non-negative run index, get
raises IndexError for every run index at most -2, and exactly one settings
snapshot is produced. -/
theorem claim_C3 (contents : List String)
    (hne : contents ≠ [])
    (hnm : ∀ l ∈ contents, startsAnyB l = false)
    (hl : ∀ l ∈ contents, l ≠ "") :
    ∃ f : File, File.build contents = Except.ok f ∧
      f.get_num_partial_logs = 0 ∧
      (∀ c, f.get c (-1) = Except.ok none) ∧
      (∀ c (k : Nat), f.get c (k : Int) = Except.ok none) ∧
      (∀ c (run : Int), run ≤ -2 → f.get c run = Except.error "IndexError") ∧
      f.partial_simulation_settings.length = 1 := by
  have hread := read_noMarker contents hnm
  have hobfr : ¬ (read_file_to_dict contents).output_before_first_run = "" := by
    rw [hread]
    show ¬ strConcat contents = ""
    cases contents with
    | nil => cases hne rfl
    | cons l ls => exact strConcat_ne_empty l ls (hl l (List.mem_cons_self _ _))
  refine ⟨_, build_eq contents hobfr, ?_, ?_, ?_, ?_, ?_⟩
  · show (read_file_to_dict contents).partial_logs.length = 0
    rw [hread]
    rfl
  · intro c
    rw [get_agg]
    show Except.ok (dlookup (read_file_to_dict contents).data_dict c) = _
    rw [hread]
    rfl
  · intro c k
    apply get_big
    show (read_file_to_dict contents).partial_logs.length ≤ k
    rw [hread]
    exact Nat.zero_le k
  · intro c run hrun
    apply get_neg_small _ _ _ hrun
    show run < -((read_file_to_dict contents).partial_logs.length : Int)
    rw [hread]
    show run < -((0 : Nat) : Int)
    omega
  · show ((pySplitlines (read_file_to_dict contents).output_before_first_run).foldl
        (fun s l => dupdate s (parse_line l)) [] ::
        settingsChain _ (read_file_to_dict contents).intermittent_output).length = 1
    rw [hread]
    rfl

/-- Counterexample to C3 as stated: on the marker-free one-line input, the
settings-extraction pass does not raise (construction succeeds), and get with
run index -2 raises IndexError instead of returning the sentinel. -/
theorem claim_C3_counterexample :
    (File.build demoNoRun).toOption.map (fun f => f.get "Temp" (-2)) =
      some (Except.error "IndexError") := by decide

/-- Witness for the amended C3 at the concrete marker-free input. -/
theorem claim_C3_witness :
    ∃ f : File, File.build demoNoRun = Except.ok f ∧
      f.get_num_partial_logs = 0 ∧
      (∀ c, f.get c (-1) = Except.ok none) ∧
      (∀ c (k : Nat), f.get c (k : Int) = Except.ok none) ∧
      (∀ c (run : Int), run ≤ -2 → f.get c run = Except.error "IndexError") ∧
      f.partial_simulation_settings.length = 1 :=
  claim_C3 demoNoRun (by decide) (by decide) (by decide)

/-! ## Lockstep of narrative chunks and per-run datasets -/

theorem startCheck_partial_logs (st : SegAcc) (l : String) :
    (startCheck st l).partial_logs = st.partial_logs := by
  unfold startCheck
  split <;> rfl

theorem startCheck_inter (st : SegAcc) (l : String) :
    (startCheck st l).intermittent_output = st.intermittent_output := by
  unfold startCheck
  split <;> rfl

theorem finalizeBlock_partial_logs_len (st : SegAcc) (kw buf : List String) :
    (finalizeBlock st kw buf).partial_logs.length = st.partial_logs.length + 1 := by
  show (st.partial_logs ++ [_]).length = _
  simp

theorem finalizeBlock_inter_len (st : SegAcc) (kw buf : List String) :
    (finalizeBlock st kw buf).intermittent_output.length =
      st.intermittent_output.length + 1 := by
  show (st.intermittent_output ++ [st.tmp]).length = _
  simp

theorem segStep_lock (st : SegAcc) (l : String)
    (h : st.intermittent_output.length = st.partial_logs.length) :
    (segStep st l).intermittent_output.length = (segStep st l).partial_logs.length := by
  have htop : (topAppends st l).intermittent_output = st.intermittent_output ∧
      (topAppends st l).partial_logs = st.partial_logs := by
    rw [topAppends_eq]
    exact ⟨rfl, rfl⟩
  cases hm : st.mode with
  | scan =>
      rw [segStep_scan st l hm, startCheck_inter, startCheck_partial_logs, htop.1, htop.2]
      exact h
  | header =>
      by_cases hs : stopsAnyB l = true
      · rw [segStep_header_stop st l hm hs, startCheck_inter, startCheck_partial_logs,
          finalizeBlock_inter_len, finalizeBlock_partial_logs_len, htop.1, htop.2, h]
      · rw [segStep_header_go st l hm (by simpa using hs)]
        show (topAppends st l).intermittent_output.length =
          (topAppends st l).partial_logs.length
        rw [htop.1, htop.2]
        exact h
  | collect kw buf =>
      by_cases hs : stopsAnyB l = true
      · rw [segStep_collect_stop st l kw buf hm hs, startCheck_inter,
          startCheck_partial_logs, finalizeBlock_inter_len,
          finalizeBlock_partial_logs_len, h]
      · rw [segStep_collect_go st l kw buf hm (by simpa using hs)]
        exact h

theorem segRun_lock (contents : List String) :
    ∀ st : SegAcc, st.intermittent_output.length = st.partial_logs.length →
    (segRunLines st contents).intermittent_output.length =
      (segRunLines st contents).partial_logs.length := by
  induction contents with
  | nil => intro st h; exact h
  | cons l ls ih =>
      intro st h
      rw [segRunLines_cons]
      exact ih (segStep st l) (segStep_lock st l h)

theorem segFinish_lock (st : SegAcc)
    (h : st.intermittent_output.length = st.partial_logs.length) :
    (segFinish st).intermittent_output.length = (segFinish st).partial_logs.length := by
  unfold segFinish
  cases st.mode with
  | scan => exact h
  | header => exact h
  | collect kw buf =>
      rw [finalizeBlock_inter_len, finalizeBlock_partial_logs_len, h]

theorem read_lock (contents : List String) :
    (read_file_to_dict contents).intermittent_output.length =
      (read_file_to_dict contents).partial_logs.length - 1 := by
  have h := segFinish_lock (segRunLines initSeg contents) (segRun_lock contents initSeg rfl)
  show ((segFinish (segRunLines initSeg contents)).intermittent_output.drop 1).length =
    (segFinish (segRunLines initSeg contents)).partial_logs.length - 1
  rw [List.length_drop, h]

theorem settingsChain_length (chunks : List (List String)) :
    ∀ sims : SettingsDict, (settingsChain sims chunks).length = chunks.length := by
  induction chunks with
  | nil => intro sims; rfl
  | cons c cs ih =>
      intro sims
      show (settingsChain sims (c :: cs)).length = cs.length + 1
      unfold settingsChain
      rw [List.length_cons, ih]

theorem build_ok_parts (contents : List String) (f : File)
    (h : File.build contents = Except.ok f) :
    f.seg = read_file_to_dict contents ∧
    f.partial_simulation_settings.length =
      1 + (read_file_to_dict contents).intermittent_output.length := by
  by_cases hc : (read_file_to_dict contents).output_before_first_run = ""
  · exfalso
    unfold File.build parse_simulation_settings at h
    rw [if_pos hc] at h
    cases h
  · rw [build_eq contents hc] at h
    replace h := Except.ok.inj h
    subst h
    refine ⟨rfl, ?_⟩
    rw [List.length_cons, settingsChain_length]
    omega

/-- C4 as amended: for every input on which construction succeeds, the number
of settings snapshots equals 1 plus the number of narrative chunks, and this
common value equals the number of completed tabular blocks whenever at least
one block was completed; with zero completed blocks the snapshot count is 1
while the run count is 0. -/
theorem claim_C4 (contents : List String) (f : File)
    (h : File.build contents = Except.ok f) :
    f.partial_simulation_settings.length = 1 + f.seg.intermittent_output.length ∧
    (1 ≤ f.seg.partial_logs.length →
      f.partial_simulation_settings.length = f.seg.partial_logs.length) ∧
    (f.seg.partial_logs.length = 0 → f.partial_simulation_settings.length = 1) := by
  obtain ⟨hseg, hlen⟩ := build_ok_parts contents f h
  have hlock := read_lock contents
  refine ⟨by rw [hseg]; exact hlen, ?_, ?_⟩
  · intro h1
    rw [hseg] at h1 ⊢
    rw [hlen, hlock]
    omega
  · intro h0
    rw [hseg] at h0
    rw [hlen, hlock]
    omega

/-- Counterexample to C4 as stated: a marker-free input yields one settings
snapshot and one narrative-chunk count of zero, but zero completed blocks, so
the snapshot count does not equal the run count. -/
theorem claim_C4_counterexample :
    (File.build demoNoRun).toOption.map
      (fun f => (f.partial_simulation_settings.length, f.get_num_partial_logs)) =
      some (1, 0) := by decide

/-- Witness for the amended C4 at the one-run scenario log. -/
theorem claim_C4_witness :
    ∃ f : File, File.build demoOne = Except.ok f ∧
      (f.partial_simulation_settings.length = 1 + f.seg.intermittent_output.length ∧
      (1 ≤ f.seg.partial_logs.length →
        f.partial_simulation_settings.length = f.seg.partial_logs.length) ∧
      (f.seg.partial_logs.length = 0 → f.partial_simulation_settings.length = 1)) := by
  cases hb : File.build demoOne with
  | error e =>
      exfalso
      have hs : (File.build demoOne).toOption = none := by rw [hb]; rfl
      have hd : (File.build demoOne).toOption ≠ none := by decide
      exact hd hs
  | ok f => exact ⟨f, rfl, claim_C4 demoOne f hb⟩

/-! ## Settings monotonicity -/

theorem foldl_preserve {α β : Type} (P : β → Prop) (f : β → α → β) (l : List α)
    (hf : ∀ b a, P b → P (f b a)) : ∀ b, P b → P (l.foldl f b) := by
  induction l with
  | nil => intro b h; exact h
  | cons a l ih => intro b h; exact ih _ (hf b a h)

theorem parse_line_nodup (line : String) : NodupKeys (parse_line line) := by
  unfold parse_line
  apply foldl_preserve (fun (p : String × SettingsDict) => NodupKeys p.2)
  · intro b a h
    dsimp only
    split
    · exact nodupKeys_dset _ _ _ h
    · exact h
  · exact List.nodup_nil

theorem applyChunk_nodup (chunk : List String) (sims : SettingsDict)
    (h : NodupKeys sims) : NodupKeys (applyChunk sims chunk) := by
  unfold applyChunk
  exact foldl_preserve NodupKeys (fun t l => dupdate t (parse_line l)) chunk
    (fun b a hb => nodupKeys_dupdate b (parse_line a) hb) sims h

theorem applyChunk_lookup_none (chunk : List String) :
    ∀ (sims : SettingsDict) (key : String),
    (∀ l ∈ chunk, dlookup (parse_line l) key = none) →
    dlookup (applyChunk sims chunk) key = dlookup sims key := by
  induction chunk with
  | nil => intro sims key h; rfl
  | cons l c ih =>
      intro sims key h
      have happ : applyChunk sims (l :: c) = applyChunk (dupdate sims (parse_line l)) c := by
        unfold applyChunk
        rw [List.foldl_cons]
      rw [happ, ih (dupdate sims (parse_line l)) key
          (fun x hx => h x (List.mem_cons.mpr (Or.inr hx))),
        dlookup_dupdate_none _ _ _ (h l (List.mem_cons_self _ _))]

theorem applyChunk_isSome (chunk : List String) :
    ∀ (sims : SettingsDict) (key : String),
    (dlookup sims key).isSome → (dlookup (applyChunk sims chunk) key).isSome := by
  induction chunk with
  | nil => intro sims key h; exact h
  | cons l c ih =>
      intro sims key h
      have happ : applyChunk sims (l :: c) = applyChunk (dupdate sims (parse_line l)) c := by
        unfold applyChunk
        rw [List.foldl_cons]
      rw [happ]
      exact ih (dupdate sims (parse_line l)) key (dlookup_isSome_dupdate _ _ _ h)

theorem dupdate_agree (root tmp : SettingsDict) (htmp : NodupKeys tmp)
    (hsup : ∀ k, (dlookup root k).isSome → (dlookup tmp k).isSome) :
    ∀ k, dlookup tmp k = dlookup (dupdate root tmp) k := by
  intro k
  cases he : dlookup tmp k with
  | some w => rw [dlookup_dupdate_some tmp root k w htmp he]
  | none =>
      rw [dlookup_dupdate_none _ _ _ he]
      cases hr : dlookup root k with
      | none => rfl
      | some w =>
          exfalso
          have := hsup k (by rw [hr]; rfl)
          rw [he] at this
          cases this

theorem chain_mono (key : String) (v : SettingValue) :
    ∀ (j i : Nat), i ≤ j →
    ∀ (head root : SettingsDict) (chunks : List (List String)),
    NodupKeys root →
    (∀ k, dlookup head k = dlookup root k) →
    ∀ si sj : SettingsDict,
    (head :: settingsChain root chunks)[i]? = some si →
    (head :: settingsChain root chunks)[j]? = some sj →
    dlookup si key = some v →
    (∀ m, i ≤ m → m < j → ∀ chunk, chunks[m]? = some chunk →
      ∀ l ∈ chunk, dlookup (parse_line l) key = none) →
    dlookup sj key = some v := by
  intro j
  induction j with
  | zero =>
      intro i hij head root chunks hnd hagree si sj hsi hsj hv hun
      have hi : i = 0 := Nat.le_zero.mp hij
      subst hi
      rw [hsi] at hsj
      rw [← Option.some.inj hsj]
      exact hv
  | succ j ih =>
      intro i hij head root chunks hnd hagree si sj hsi hsj hv hun
      cases chunks with
      | nil =>
          have : ([head] : List SettingsDict)[j + 1]? = none :=
            List.getElem?_eq_none (by simp)
          rw [show settingsChain root [] = [] from rfl] at hsj
          rw [this] at hsj
          cases hsj
      | cons c cs =>
          have hchain : settingsChain root (c :: cs) =
              applyChunk root c ::
                settingsChain (dupdate root (applyChunk root c)) cs := rfl
          rw [hchain] at hsi hsj
          have hnd2 : NodupKeys (dupdate root (applyChunk root c)) :=
            nodupKeys_dupdate _ _ hnd
          have hagree2 : ∀ k, dlookup (applyChunk root c) k =
              dlookup (dupdate root (applyChunk root c)) k :=
            dupdate_agree root (applyChunk root c) (applyChunk_nodup c root hnd)
              (fun k hk => applyChunk_isSome c root k hk)
          cases i with
          | zero =>
              have hshead : si = head := by
                rw [List.getElem?_cons_zero] at hsi
                exact (Option.some.inj hsi).symm
              subst hshead
              have huc : ∀ l ∈ c, dlookup (parse_line l) key = none :=
                hun 0 (Nat.le_refl 0) (Nat.succ_pos j) c (by simp)
              have htmpv : dlookup (applyChunk root c) key = some v := by
                rw [applyChunk_lookup_none c root key huc, ← hagree key]
                exact hv
              have hsj2 : (applyChunk root c ::
                  settingsChain (dupdate root (applyChunk root c)) cs)[j]? = some sj := by
                rw [List.getElem?_cons_succ] at hsj
                exact hsj
              exact ih 0 (Nat.zero_le j) (applyChunk root c)
                (dupdate root (applyChunk root c)) cs hnd2 hagree2
                (applyChunk root c) sj (by simp) hsj2 htmpv
                (fun m hm0 hm1 chunk hc => hun (m + 1) (Nat.zero_le _)
                  (Nat.succ_lt_succ hm1) chunk
                  (by rw [List.getElem?_cons_succ]; exact hc))
          | succ i2 =>
              rw [List.getElem?_cons_succ] at hsi hsj
              exact ih i2 (Nat.succ_le_succ_iff.mp hij) (applyChunk root c)
                (dupdate root (applyChunk root c)) cs hnd2 hagree2 si sj hsi hsj hv
                (fun m hm0 hm1 chunk hc => hun (m + 1) (Nat.succ_le_succ hm0)
                  (Nat.succ_lt_succ hm1) chunk
                  (by rw [List.getElem?_cons_succ]; exact hc))

theorem build_ok_settings (contents : List String) (f : File)
    (h : File.build contents = Except.ok f) :
    ∃ s0 : SettingsDict, NodupKeys s0 ∧
      f.partial_simulation_settings =
        s0 :: settingsChain s0 (read_file_to_dict contents).intermittent_output := by
  by_cases hc : (read_file_to_dict contents).output_before_first_run = ""
  · exfalso
    unfold File.build parse_simulation_settings at h
    rw [if_pos hc] at h
    cases h
  · rw [build_eq contents hc] at h
    replace h := Except.ok.inj h
    subst h
    refine ⟨_, ?_, rfl⟩
    apply foldl_preserve NodupKeys (fun s l => dupdate s (parse_line l))
    · exact fun b a hb => nodupKeys_dupdate b (parse_line a) hb
    · exact List.nodup_nil

/-- C5: snapshots are monotonically cumulative.  For snapshot indices i at
most j, every key present in snapshot i whose value is not contributed by any
recognized setting line of the intervening narrative chunks is still present
in snapshot j with the same value. -/
theorem claim_C5 (contents : List String) (f : File)
    (h : File.build contents = Except.ok f)
    (i j : Nat) (hij : i ≤ j) (si sj : SettingsDict) (key : String) (v : SettingValue)
    (hsi : f.partial_simulation_settings[i]? = some si)
    (hsj : f.partial_simulation_settings[j]? = some sj)
    (hv : dlookup si key = some v)
    (hun : ∀ m, i ≤ m → m < j → ∀ chunk,
      f.seg.intermittent_output[m]? = some chunk →
      ∀ l ∈ chunk, dlookup (parse_line l) key = none) :
    dlookup sj key = some v := by
  obtain ⟨s0, hnd, hps⟩ := build_ok_settings contents f h
  have hseg := (build_ok_parts contents f h).1
  rw [hps] at hsi hsj
  refine chain_mono key v j i hij s0 s0
    (read_file_to_dict contents).intermittent_output hnd (fun k => rfl)
    si sj hsi hsj hv ?_
  intro m hm0 hm1 chunk hc
  exact hun m hm0 hm1 chunk (by rw [hseg]; exact hc)

/-- Witness for C5 on the two-run log: the units setting captured before the
first run persists unchanged into the second snapshot. -/
theorem claim_C5_witness :
    ∃ (f : File) (si sj : SettingsDict),
      File.build demoTwo = Except.ok f ∧
      f.partial_simulation_settings[0]? = some si ∧
      f.partial_simulation_settings[1]? = some sj ∧
      dlookup si "units" = some (SettingValue.str "lj") ∧
      dlookup sj "units" = some (SettingValue.str "lj") := by
  cases hb : File.build demoTwo with
  | error e =>
      exfalso
      have hs : (File.build demoTwo).toOption = none := by rw [hb]; rfl
      have hd : (File.build demoTwo).toOption ≠ none := by decide
      exact hd hs
  | ok f =>
      have hA : (File.build demoTwo).toOption.map
          (fun g => g.partial_simulation_settings[0]?) =
          some (some [("units", SettingValue.str "lj")]) := by decide
      rw [hb] at hA
      have h0 : f.partial_simulation_settings[0]? =
          some [("units", SettingValue.str "lj")] := Option.some.inj hA
      have hB : (File.build demoTwo).toOption.map
          (fun g => g.partial_simulation_settings[1]?) =
          some (some [("units", SettingValue.str "lj"),
            ("timestep", SettingValue.num "0.01")]) := by decide
      rw [hb] at hB
      have h1 : f.partial_simulation_settings[1]? =
          some [("units", SettingValue.str "lj"),
            ("timestep", SettingValue.num "0.01")] := Option.some.inj hB
      refine ⟨f, _, _, rfl, h0, h1, by decide, ?_⟩
      refine claim_C5 demoTwo f hb 0 1 (by omega) _ _ "units" (SettingValue.str "lj")
        h0 h1 (by decide) ?_
      intro m hm0 hm1 chunk hc l hl
      have hm : m = 0 := by omega
      subst hm
      rw [(build_ok_parts demoTwo f hb).1] at hc
      have hcv : (read_file_to_dict demoTwo).intermittent_output[0]? =
          some ["timestep 0.01\n", "Per MPI rank memory allocation\n"] := by decide
      rw [hcv] at hc
      obtain rfl := Option.some.inj hc
      have hall : ∀ x ∈ ["timestep 0.01\n", "Per MPI rank memory allocation\n"],
          dlookup (parse_line x) "units" = none := by decide
      exact hall l hl

/-! ## Accessor error characterisation -/

theorem get_ok_cases (f : File) (name : String) (run : Int)
    (hcond : ¬ (run ≤ -2 ∧ run < -(f.seg.partial_logs.length : Int))) :
    ∃ r, f.get name run = Except.ok r := by
  by_cases h1 : run = -1
  · subst h1
    rw [get_agg]
    exact ⟨_, rfl⟩
  · by_cases h2 : 0 ≤ run
    · have hr : run = ((run.toNat : Nat) : Int) := (Int.toNat_of_nonneg h2).symm
      by_cases h3 : run.toNat < f.seg.partial_logs.length
      · rw [hr, get_nonneg f name run.toNat h3]
        exact ⟨_, rfl⟩
      · rw [hr, get_big f name run.toNat (Nat.le_of_not_lt h3)]
        exact ⟨_, rfl⟩
    · have h4 : run ≤ -2 := by omega
      have h5 : -(f.seg.partial_logs.length : Int) ≤ run := by omega
      rw [get_neg_alias f name run h4 h5]
      have h6 : run + (f.seg.partial_logs.length : Int) =
          (((run + f.seg.partial_logs.length).toNat : Nat) : Int) := by omega
      have h7 : (run + (f.seg.partial_logs.length : Int)).toNat <
          f.seg.partial_logs.length := by omega
      rw [h6, get_nonneg f name _ h7]
      exact ⟨_, rfl⟩

theorem kw_ok_cases (f : File) (run : Int)
    (hcond : ¬ (run ≤ -2 ∧ run < -(f.seg.partial_logs.length : Int))) :
    ∃ r, f.get_keywords run = Except.ok r := by
  by_cases h1 : run = -1
  · subst h1
    refine ⟨some (insSort f.seg.keywords), ?_⟩
    unfold File.get_keywords
    rw [if_pos rfl]
  · by_cases h2 : 0 ≤ run
    · have hr : run = ((run.toNat : Nat) : Int) := (Int.toNat_of_nonneg h2).symm
      by_cases h3 : run.toNat < f.seg.partial_logs.length
      · rw [hr, kw_nonneg f run.toNat h3]
        exact ⟨_, rfl⟩
      · rw [hr, kw_big f run.toNat (Nat.le_of_not_lt h3)]
        exact ⟨_, rfl⟩
    · have h4 : run ≤ -2 := by omega
      have h5 : -(f.seg.partial_logs.length : Int) ≤ run := by omega
      rw [kw_neg_alias f run h4 h5]
      have h6 : run + (f.seg.partial_logs.length : Int) =
          (((run + f.seg.partial_logs.length).toNat : Nat) : Int) := by omega
      have h7 : (run + (f.seg.partial_logs.length : Int)).toNat <
          f.seg.partial_logs.length := by omega
      rw [h6, kw_nonneg f _ h7]
      exact ⟨_, rfl⟩

/-- C6 as amended: get and get_keywords raise IndexError exactly when the run
index is at most -2 and its magnitude exceeds the number of runs; in every
other case they return a value, a non-negative run index beyond the last run
yields the not-found sentinel, and when the named column is absent get also
yields the not-found sentinel, both from the aggregate dataset at run -1 and
from the per-run dataset at any existing run index. -/
theorem claim_C6 (contents : List String) (f : File)
    (h : File.build contents = Except.ok f) (name : String) (run : Int) :
    ((∃ e, f.get name run = Except.error e) ↔
      run ≤ -2 ∧ run < -(f.seg.partial_logs.length : Int)) ∧
    ((∃ e, f.get_keywords run = Except.error e) ↔
      run ≤ -2 ∧ run < -(f.seg.partial_logs.length : Int)) ∧
    (0 ≤ run → (f.seg.partial_logs.length : Int) ≤ run →
      f.get name run = Except.ok none ∧ f.get_keywords run = Except.ok none) ∧
    (name ∉ dkeys f.seg.data_dict → f.get name (-1) = Except.ok none) ∧
    (∀ (k : Nat) (hk : k < f.seg.partial_logs.length),
      name ∉ dkeys (f.seg.partial_logs.get ⟨k, hk⟩) →
      f.get name (k : Int) = Except.ok none) := by
  refine ⟨⟨?_, ?_⟩, ⟨?_, ?_⟩, ?_, ?_, ?_⟩
  · intro he
    by_contra hc
    obtain ⟨r, hr⟩ := get_ok_cases f name run hc
    obtain ⟨e, he2⟩ := he
    rw [hr] at he2
    cases he2
  · intro hc
    exact ⟨"IndexError", get_neg_small f name run hc.1 hc.2⟩
  · intro he
    by_contra hc
    obtain ⟨r, hr⟩ := kw_ok_cases f run hc
    obtain ⟨e, he2⟩ := he
    rw [hr] at he2
    cases he2
  · intro hc
    exact ⟨"IndexError", kw_neg_small f run hc.1 hc.2⟩
  · intro h0 hL
    have hr : run = ((run.toNat : Nat) : Int) := (Int.toNat_of_nonneg h0).symm
    have hbig : f.seg.partial_logs.length ≤ run.toNat := by omega
    rw [hr, get_big f name run.toNat hbig, kw_big f run.toNat hbig]
    exact ⟨rfl, rfl⟩
  · intro habs
    rw [get_agg, dlookup_eq_none_of_not_mem _ _ habs]
  · intro k hk habs
    rw [get_nonneg f name k hk, dlookup_eq_none_of_not_mem _ _ habs]

/-- Counterexample to C6 as stated: on the one-run scenario log, get and
get_keywords with run index -2 raise IndexError instead of returning the
sentinel. -/
theorem claim_C6_counterexample :
    (File.build demoOne).toOption.map
      (fun f => (f.get "Temp" (-2), f.get_keywords (-2))) =
      some (Except.error "IndexError", Except.error "IndexError") := by decide

/-- Witness for the amended C6 at the one-run log: run index -2 raises, and
the absent column Press yields the sentinel from the aggregate and from the
per-run dataset of run 0. -/
theorem claim_C6_witness :
    ∃ f : File, File.build demoOne = Except.ok f ∧
      (((∃ e, f.get "Press" (-2) = Except.error e) ↔
        (-2 : Int) ≤ -2 ∧ (-2 : Int) < -(f.seg.partial_logs.length : Int)) ∧
      ((∃ e, f.get_keywords (-2) = Except.error e) ↔
        (-2 : Int) ≤ -2 ∧ (-2 : Int) < -(f.seg.partial_logs.length : Int))) ∧
      f.get "Press" (-1) = Except.ok none ∧
      f.get "Press" ((0 : Nat) : Int) = Except.ok none := by
  cases hb : File.build demoOne with
  | error e =>
      exfalso
      have hs : (File.build demoOne).toOption = none := by rw [hb]; rfl
      have hd : (File.build demoOne).toOption ≠ none := by decide
      exact hd hs
  | ok f =>
      have hc := claim_C6 demoOne f hb "Press" (-2)
      have hA : (File.build demoOne).toOption.map (fun g => dkeys g.seg.data_dict) =
          some ["Step", "Temp"] := by decide
      rw [hb] at hA
      have hdd : dkeys f.seg.data_dict = ["Step", "Temp"] := Option.some.inj hA
      have hB : (File.build demoOne).toOption.map (fun g => g.seg.partial_logs.length) =
          some 1 := by decide
      rw [hb] at hB
      have hL : f.seg.partial_logs.length = 1 := Option.some.inj hB
      have hk : 0 < f.seg.partial_logs.length := by omega
      have hC : (File.build demoOne).toOption.map
          (fun g => g.seg.partial_logs[0]?.map dkeys) =
          some (some ["Step", "Temp"]) := by decide
      rw [hb] at hC
      have hpl : f.seg.partial_logs[0]?.map dkeys = some ["Step", "Temp"] :=
        Option.some.inj hC
      rw [List.getElem?_eq_getElem hk] at hpl
      have hpk : dkeys (f.seg.partial_logs.get ⟨0, hk⟩) = ["Step", "Temp"] :=
        Option.some.inj hpl
      refine ⟨f, rfl, ⟨hc.1, hc.2.1⟩, ?_, ?_⟩
      · exact hc.2.2.2.1 (by rw [hdd]; decide)
      · exact hc.2.2.2.2 0 hk (by rw [hpk]; decide)

/-- C10: a negative run index other than -1 that is within range silently
selects a run counted from the end: get and get_keywords agree with the
corresponding non-negative index R + run. -/
theorem claim_C10 (contents : List String) (f : File)
    (h : File.build contents = Except.ok f)
    (hR : 1 ≤ f.seg.partial_logs.length)
    (run : Int) (h1 : -(f.seg.partial_logs.length : Int) ≤ run) (h2 : run ≤ -2)
    (name : String) :
    f.get name run = f.get name ((f.seg.partial_logs.length : Int) + run) ∧
    f.get_keywords run = f.get_keywords ((f.seg.partial_logs.length : Int) + run) := by
  rw [Int.add_comm]
  exact ⟨get_neg_alias f name run h2 h1, kw_neg_alias f run h2 h1⟩

/-- Witness for C10 on the two-run log at run index -2. -/
theorem claim_C10_witness :
    ∃ f : File, File.build demoTwo = Except.ok f ∧
      (f.get "Temp" (-2) = f.get "Temp" ((f.seg.partial_logs.length : Int) + -2) ∧
      f.get_keywords (-2) = f.get_keywords ((f.seg.partial_logs.length : Int) + -2)) := by
  cases hb : File.build demoTwo with
  | error e =>
      exfalso
      have hs : (File.build demoTwo).toOption = none := by rw [hb]; rfl
      have hd : (File.build demoTwo).toOption ≠ none := by decide
      exact hd hs
  | ok f =>
      have hA : (File.build demoTwo).toOption.map (fun g => g.seg.partial_logs.length) =
          some 2 := by decide
      rw [hb] at hA
      have hL : f.seg.partial_logs.length = 2 := Option.some.inj hA
      refine ⟨f, rfl, claim_C10 demoTwo f hb (by omega) (-2) (by rw [hL]; omega)
        (by omega) "Temp"⟩

/-! ## The per-line setting extraction rule -/

theorem parseFold_ne_nil (kws : List String) :
    ∀ p : String × SettingsDict, p.2 ≠ [] →
    ((kws.foldl
      (fun (p : String × SettingsDict) kw =>
        if pyStartsWith (pyStrip p.1) kw then
          let cut := pyCutHash p.1
          (cut, dset p.2 kw (coerceValue ((tokenize cut).drop 1)))
        else p) p).2) ≠ [] := by
  apply foldl_preserve (fun (p : String × SettingsDict) => p.2 ≠ [])
  intro b a h
  dsimp only
  split
  · exact dset_ne_nil _ _ _
  · exact h

/-- C7 as amended: a narrative line contributes at least one setting exactly
when, after trimming surrounding whitespace, it begins with one of the
recognized setting names as a raw string prefix; no whitespace delimiter after
the name is required, so a first token that merely extends a recognized name,
such as unitsfoo, does contribute a setting. -/
theorem claim_C7 (line : String) :
    parse_line line = [] ↔
      ∀ kw ∈ sim_settings_kws, pyStartsWith (pyStrip line) kw = false := by
  unfold parse_line
  suffices h : ∀ (kws : List String) (l : String),
      (((kws.foldl
        (fun (p : String × SettingsDict) kw =>
          if pyStartsWith (pyStrip p.1) kw then
            let cut := pyCutHash p.1
            (cut, dset p.2 kw (coerceValue ((tokenize cut).drop 1)))
          else p) (l, [])).2) = [] ↔
        ∀ kw ∈ kws, pyStartsWith (pyStrip l) kw = false) by
    exact h sim_settings_kws line
  intro kws
  induction kws with
  | nil =>
      intro l
      simp
  | cons kw kws ih =>
      intro l
      rw [List.foldl_cons]
      by_cases hm : pyStartsWith (pyStrip l) kw = true
      · rw [if_pos hm]
        constructor
        · intro hemp
          exfalso
          exact parseFold_ne_nil kws _ (dset_ne_nil _ _ _) hemp
        · intro hall
          exfalso
          have := hall kw (List.mem_cons_self _ _)
          rw [hm] at this
          cases this
      · have hm2 : pyStartsWith (pyStrip l) kw = false := by
          cases hb : pyStartsWith (pyStrip l) kw
          · rfl
          · exact absurd hb hm
        rw [if_neg (by rw [hm2]; exact Bool.false_ne_true), ih l]
        constructor
        · intro hall kw2 hkw2
          rcases List.mem_cons.mp hkw2 with he | hmem
          · rw [he]
            exact hm2
          · exact hall kw2 hmem
        · intro hall kw2 hkw2
          exact hall kw2 (List.mem_cons.mpr (Or.inr hkw2))

/-- Counterexample to C7 as stated: the line with first token unitsfoo, whose
recognized name units is only a proper prefix of the token, nevertheless
contributes the setting units with value bar. -/
theorem claim_C7_counterexample :
    parse_line "unitsfoo bar" = [("units", SettingValue.str "bar")] := by decide

/-! ## Stability of the pre-run narrative after the first start marker -/

theorem startCheck_obfr (st : SegAcc) (l : String) :
    (startCheck st l).output_before_first_run = st.output_before_first_run := by
  unfold startCheck
  split <;> rfl

theorem startCheck_bf (st : SegAcc) (l : String) (h : st.beforeFirst = false) :
    (startCheck st l).beforeFirst = false := by
  unfold startCheck
  split
  · rfl
  · exact h

theorem finalizeBlock_obfr (st : SegAcc) (kw buf : List String) :
    (finalizeBlock st kw buf).output_before_first_run = st.output_before_first_run := rfl

theorem finalizeBlock_bf (st : SegAcc) (kw buf : List String) :
    (finalizeBlock st kw buf).beforeFirst = st.beforeFirst := rfl

theorem segStep_obfr (st : SegAcc) (l : String) (h : st.beforeFirst = false) :
    (segStep st l).output_before_first_run = st.output_before_first_run ∧
    (segStep st l).beforeFirst = false := by
  have htop : (topAppends st l).output_before_first_run = st.output_before_first_run ∧
      (topAppends st l).beforeFirst = false := by
    rw [topAppends_eq]
    refine ⟨?_, h⟩
    rw [h]
    simp
  cases hm : st.mode with
  | scan =>
      rw [segStep_scan st l hm, startCheck_obfr, htop.1]
      exact ⟨rfl, startCheck_bf _ _ htop.2⟩
  | header =>
      by_cases hs : stopsAnyB l = true
      · rw [segStep_header_stop st l hm hs, startCheck_obfr, finalizeBlock_obfr, htop.1]
        refine ⟨rfl, startCheck_bf _ _ ?_⟩
        rw [finalizeBlock_bf]
        exact htop.2
      · rw [segStep_header_go st l hm (by
          cases hb : stopsAnyB l
          · rfl
          · exact absurd hb hs)]
        exact ⟨htop.1, htop.2⟩
  | collect kw buf =>
      by_cases hs : stopsAnyB l = true
      · rw [segStep_collect_stop st l kw buf hm hs, startCheck_obfr, finalizeBlock_obfr]
        refine ⟨rfl, startCheck_bf _ _ ?_⟩
        rw [finalizeBlock_bf]
        exact h
      · rw [segStep_collect_go st l kw buf hm (by
          cases hb : stopsAnyB l
          · rfl
          · exact absurd hb hs)]
        exact ⟨rfl, h⟩

theorem segRun_obfr (ls : List String) :
    ∀ st : SegAcc, st.beforeFirst = false →
    (segRunLines st ls).output_before_first_run = st.output_before_first_run ∧
    (segRunLines st ls).beforeFirst = false := by
  induction ls with
  | nil => intro st h; exact ⟨rfl, h⟩
  | cons l ls ih =>
      intro st h
      rw [segRunLines_cons]
      obtain ⟨h1, h2⟩ := segStep_obfr st l h
      obtain ⟨h3, h4⟩ := ih (segStep st l) h2
      rw [h3, h1]
      exact ⟨rfl, h4⟩

theorem segFinish_obfr (st : SegAcc) :
    (segFinish st).output_before_first_run = st.output_before_first_run := by
  unfold segFinish
  cases st.mode with
  | scan => rfl
  | header => rfl
  | collect kw buf => rw [finalizeBlock_obfr]

/-- C8 as amended: the pre-run narrative consists of the lines strictly before
the first start-marker line plus that start-marker line itself, which the loop
appends before clearing the before-first-run flag. -/
theorem claim_C8 (pre : List String) (s : String) (rest : List String)
    (hpre : ∀ l ∈ pre, startsAnyB l = false) (hs : startsAnyB s = true) :
    (read_file_to_dict (pre ++ s :: rest)).output_before_first_run =
      strConcat pre ++ s := by
  show (segFinish (segRunLines initSeg (pre ++ s :: rest))).output_before_first_run = _
  rw [segFinish_obfr, segRun_scan pre initSeg (s :: rest) rfl hpre]
  have h2 : { initSeg with
      output_before_first_run :=
        if initSeg.beforeFirst then initSeg.output_before_first_run ++ strConcat pre
        else initSeg.output_before_first_run,
      tmp := if initSeg.intermit then initSeg.tmp ++ pre else initSeg.tmp } =
      { initSeg with output_before_first_run := strConcat pre } := by
    simp [initSeg, str_empty_append]
  rw [h2, segRunLines_cons]
  have hstep : segStep { initSeg with output_before_first_run := strConcat pre } s =
      { topAppends { initSeg with output_before_first_run := strConcat pre } s with
        mode := SegMode.header, beforeFirst := false, intermit := false } := by
    rw [segStep_scan _ s rfl, startCheck_pos _ s hs]
  rw [hstep]
  obtain ⟨h4, _⟩ := segRun_obfr rest
    ({ topAppends { initSeg with output_before_first_run := strConcat pre } s with
      mode := SegMode.header, beforeFirst := false, intermit := false }) rfl
  rw [h4]
  rfl

/-- Counterexample to C8 as stated: on the scenario log the captured pre-run
narrative is the two narrative lines plus the start-marker line itself, not
the lines strictly before the marker. -/
theorem claim_C8_counterexample :
    (read_file_to_dict demoOne).output_before_first_run =
      "units lj\ntimestep 0.005\nPer MPI rank memory allocation\n" ∧
    (read_file_to_dict demoOne).output_before_first_run ≠
      strConcat ["units lj\n", "timestep 0.005\n"] := by decide

/-- Witness for the amended C8 at the scenario log. -/
theorem claim_C8_witness :
    (read_file_to_dict (["units lj\n", "timestep 0.005\n"] ++
        "Per MPI rank memory allocation\n" ::
        ["Step Temp\n", "0 1.0\n", "1 1.1\n", "Loop time\n"])).output_before_first_run =
      strConcat ["units lj\n", "timestep 0.005\n"] ++
        "Per MPI rank memory allocation\n" :=
  claim_C8 ["units lj\n", "timestep 0.005\n"] "Per MPI rank memory allocation\n"
    ["Step Temp\n", "0 1.0\n", "1 1.1\n", "Loop time\n"] (by decide) (by decide)

/-! ## Repeating the settings-extraction pass -/

/-- C9 as amended: running parse_simulation_settings a second time on an
already-populated File does not reproduce the snapshot list: it appends a
further 1 + (number of narrative chunks) snapshots, leaving the snapshots of
the first run unchanged as a proper prefix, so the resulting list is never
identical to the original one. -/
theorem claim_C9 (contents : List String) (f f2 : File)
    (h : File.build contents = Except.ok f)
    (h2 : parse_simulation_settings f = Except.ok f2) :
    f2.partial_simulation_settings.length =
      f.partial_simulation_settings.length + (1 + f.seg.intermittent_output.length) ∧
    f2.partial_simulation_settings.take f.partial_simulation_settings.length =
      f.partial_simulation_settings ∧
    f2.partial_simulation_settings ≠ f.partial_simulation_settings := by
  by_cases hc : f.seg.output_before_first_run = ""
  · exfalso
    unfold parse_simulation_settings at h2
    rw [if_pos hc] at h2
    cases h2
  · unfold parse_simulation_settings at h2
    rw [if_neg hc] at h2
    replace h2 := Except.ok.inj h2
    subst h2
    refine ⟨?_, ?_, ?_⟩
    · show (f.partial_simulation_settings ++ _ :: settingsChain _ _).length = _
      rw [List.length_append, List.length_cons, settingsChain_length]
      omega
    · show (f.partial_simulation_settings ++ _ :: settingsChain _ _).take
        f.partial_simulation_settings.length = _
      exact List.take_left _ _
    · intro hh
      have hlen := congrArg List.length hh
      rw [List.length_append, List.length_cons, settingsChain_length] at hlen
      omega

/-- Counterexample to C9 as stated: on the one-run scenario log the first pass
yields one snapshot while a second invocation leaves a snapshot list of length
two, so the lists are not identical. -/
theorem claim_C9_counterexample :
    ((File.build demoOne).bind parse_simulation_settings).toOption.map
        (fun f => f.partial_simulation_settings.length) = some 2 ∧
    (File.build demoOne).toOption.map
        (fun f => f.partial_simulation_settings.length) = some 1 := by decide

/-- Witness for the amended C9 at the one-run scenario log. -/
theorem claim_C9_witness :
    ∃ f f2 : File, File.build demoOne = Except.ok f ∧
      parse_simulation_settings f = Except.ok f2 ∧
      (f2.partial_simulation_settings.length =
        f.partial_simulation_settings.length + (1 + f.seg.intermittent_output.length) ∧
      f2.partial_simulation_settings.take f.partial_simulation_settings.length =
        f.partial_simulation_settings ∧
      f2.partial_simulation_settings ≠ f.partial_simulation_settings) := by
  cases hb : File.build demoOne with
  | error e =>
      exfalso
      have hs : (File.build demoOne).toOption = none := by rw [hb]; rfl
      have hd : (File.build demoOne).toOption ≠ none := by decide
      exact hd hs
  | ok f =>
      cases hp : parse_simulation_settings f with
      | error e =>
          exfalso
          have hs : ((File.build demoOne).bind parse_simulation_settings).toOption = none := by
            rw [hb]
            show (parse_simulation_settings f).toOption = none
            rw [hp]
            rfl
          have hd : ((File.build demoOne).bind parse_simulation_settings).toOption ≠ none := by
            decide
          exact hd hs
      | ok f2 => exact ⟨f, f2, rfl, hp, claim_C9 demoOne f f2 hb hp⟩

end LammpsLog
